import Mathlib

/-!
Verification of the bizwise receipt-extraction core.

This file shallowly embeds the extraction pipeline of the repository
(`backend/services/extraction.py` and `backend/services/ocr.py`) in Lean:

* money parsing (`_parse_amount` and the `_CURRENCY_RE` regex) as an
  executable backtracking matcher over `List Char`;
* the regex cascades of `NLPExtractor` (merchant / date / total / tax /
  line items) via a small priority-ordered matching engine that mirrors
  Python `re` greedy/lazy backtracking semantics for the character-class
  patterns used by the source;
* `OCRService.extract_text` over abstract per-variant recognition
  outcomes (the external OCR backends are inputs, `none` modelling an
  invocation that raised);
* the confidence fusion `_calculate_confidence`.

Machine floats of the source are modelled as exact rationals; Python
`round(x, 2)` is round-half-even at two decimals.  The external lenient
date parser (`dateutil.parser.parse`) is not repository code and is taken
as an oracle parameter of `extract_date`.
-/

namespace Bizwise

abbrev Chars := List Char

/-! ### Character classes (Python `re` classes restricted to the ASCII
inputs the service handles) -/

def isDigitC (c : Char) : Bool := c.isDigit

/-- Python `\s` (ASCII part). -/
def isSpaceC (c : Char) : Bool :=
  c = ' ' || c = '\t' || c = '\n' || c = '\r' || c = '\x0b' || c = '\x0c'

/-- Python `\w` (ASCII part). -/
def isWordC (c : Char) : Bool := c.isAlphanum || c = '_'

/-- `[A-Za-z]`. -/
def isAsciiLetter (c : Char) : Bool :=
  ('A' ≤ c && c ≤ 'Z') || ('a' ≤ c && c ≤ 'z')

/-- Thousands separators accepted by `_CURRENCY_RE`: `[,. ]`. -/
def isSep3C (c : Char) : Bool := c = ',' || c = '.' || c = ' '

/-- Decimal separators accepted by `_CURRENCY_RE`: `[.,]`. -/
def isDecC (c : Char) : Bool := c = '.' || c = ','

/-- ASCII lowercasing (`str.lower` on the inputs that occur). -/
def lowerC (c : Char) : Char :=
  if 'A' ≤ c && c ≤ 'Z' then Char.ofNat (c.toNat + 32) else c

/-! ### Small list/string utilities -/

/-- `str.strip()`. -/
def trimL (l : Chars) : Chars :=
  ((l.dropWhile isSpaceC).reverse.dropWhile isSpaceC).reverse

/-- Split a char list at every occurrence of `sep` (Python `str.split(sep)`). -/
def splitChar (sep : Char) : Chars → List Chars
  | [] => [[]]
  | c :: r =>
    let rest := splitChar sep r
    if c = sep then [] :: rest
    else match rest with
      | [] => [[c]]
      | w :: ws => (c :: w) :: ws

/-- Numeric value of a digit string (`int(...)` on `\d+`). -/
def digitsVal (l : Chars) : Nat :=
  l.foldl (fun a c => a * 10 + (c.toNat - 48)) 0

/-- Leading run length of characters satisfying `p`. -/
def countWhile (p : Char → Bool) : Chars → Nat
  | [] => 0
  | c :: r => if p c then countWhile p r + 1 else 0

/-- Substring containment (Python `kw in low`). -/
def startsWithL : Chars → Chars → Bool
  | [], _ => true
  | _ :: _, [] => false
  | c :: n, d :: h => c = d && startsWithL n h

def containsSub (needle : Chars) : Chars → Bool
  | [] => startsWithL needle []
  | c :: r => startsWithL needle (c :: r) || containsSub needle r

/-- Python `str.split()`: words separated by whitespace runs. -/
def wordsOf : Chars → List Chars
  | [] => []
  | c :: r =>
    if isSpaceC c then wordsOf r
    else
      match wordsOf r with
      | [] => [[c]]
      | w :: ws =>
        match r with
        | [] => [[c]]
        | d :: _ => if isSpaceC d then [c] :: w :: ws else (c :: w) :: ws

/-! ### Rounding: Python `round(x, 2)` as round-half-even on rationals -/

def roundHE (q : ℚ) : ℤ :=
  let f := q.floor
  let r := q - (f : ℚ)
  if r < 1/2 then f
  else if (1/2 : ℚ) < r then f + 1
  else if f % 2 = 0 then f else f + 1

def round2 (q : ℚ) : ℚ := ((roundHE (q * 100) : ℤ) : ℚ) / 100

/-! ### `_CURRENCY_RE` core group

`(\d{1,7}(?:[,. ]\d{3})*[.,]\d{1,2})` as a greedy matcher with
backtracking, exactly in Python `re` preference order.  The optional
currency-symbol/space prefix of `_CURRENCY_RE` stands before the capture
group and never changes whether the group matches somewhere in a string
nor the captured text (the group starts with a digit, which the prefix
cannot consume), so searching the group directly is faithful. -/

/-- `[.,]\d{1,2}` (greedy: two digits preferred). -/
def matchTail : Chars → Option (Chars × Chars)
  | c :: d1 :: d2 :: r =>
    if isDecC c && isDigitC d1 && isDigitC d2 then some ([c, d1, d2], r)
    else if isDecC c && isDigitC d1 then some ([c, d1], d2 :: r)
    else none
  | [c, d1] => if isDecC c && isDigitC d1 then some ([c, d1], []) else none
  | _ => none

/-- `(?:[,. ]\d{3})*[.,]\d{1,2}` — greedy star with backtracking. -/
def matchStarTail : Chars → Option (Chars × Chars)
  | s :: a :: b :: c :: r =>
    if isSep3C s && isDigitC a && isDigitC b && isDigitC c then
      match matchStarTail r with
      | some (m, r') => some (s :: a :: b :: c :: m, r')
      | none => matchTail (s :: a :: b :: c :: r)
    else matchTail (s :: a :: b :: c :: r)
  | l => matchTail l

/-- `\d{1,7}` followed by the star/tail: greedy from `j` digits down to 1. -/
def tryDigits : Nat → Chars → Option (Chars × Chars)
  | 0, _ => none
  | j + 1, l =>
    if j + 1 ≤ l.length ∧ (l.take (j + 1)).all isDigitC then
      match matchStarTail (l.drop (j + 1)) with
      | some (m, r) => some (l.take (j + 1) ++ m, r)
      | none => tryDigits j l
    else tryDigits j l

def matchCore (l : Chars) : Option (Chars × Chars) := tryDigits 7 l

/-- `re.search` of the core group: leftmost match. -/
def searchCore : Chars → Option Chars
  | [] => none
  | c :: r =>
    match matchCore (c :: r) with
    | some (m, _) => some m
    | none => searchCore r

/-! ### `_parse_amount` -/

/-- `re.search(r"\d\.\d{3},\d{1,2}$", s)`: the string ends in a
dot-grouped, comma-decimal shape (one or two final decimal digits). -/
def dgOne : Chars → Bool
  | z1 :: c1 :: y3 :: y2 :: y1 :: c2 :: x :: _ =>
    isDigitC z1 && c1 = ',' && isDigitC y3 && isDigitC y2 && isDigitC y1 &&
      c2 = '.' && isDigitC x
  | _ => false

def dgTwo : Chars → Bool
  | z2 :: z1 :: c1 :: y3 :: y2 :: y1 :: c2 :: x :: _ =>
    isDigitC z2 && isDigitC z1 && c1 = ',' && isDigitC y3 && isDigitC y2 &&
      isDigitC y1 && c2 = '.' && isDigitC x
  | _ => false

def dotGroupedB (s : Chars) : Bool := dgOne s.reverse || dgTwo s.reverse

/-- Python `float(s)` on the digit/dot strings produced by the
normalisation below (`Option` models the caught `ValueError`). -/
def floatOfChars (l : Chars) : Option ℚ :=
  match l.span (fun c => c ≠ '.') with
  | (a, []) =>
    if a ≠ [] ∧ a.all isDigitC then some (digitsVal a) else none
  | (a, _ :: b) =>
    if (a ≠ [] ∨ b ≠ []) ∧ a.all isDigitC ∧ b.all isDigitC then
      some ((digitsVal a : ℚ) + (digitsVal b : ℚ) / (10 ^ b.length : ℕ))
    else none

/-- The separator normalisation of `_parse_amount` applied to the
captured group. -/
def normaliseAmount (g : Chars) : Chars :=
  let s := g.filter (fun c => c ≠ ' ')
  if dotGroupedB s then
    (s.filter (fun c => c ≠ '.')).map (fun c => if c = ',' then '.' else c)
  else s.filter (fun c => c ≠ ',')

/-- The `re.search(_CURRENCY_RE, raw.strip())` stage of `_parse_amount`. -/
def moneySearchL (raw : Chars) : Option Chars := searchCore (trimL raw)

/-- `_parse_amount`. -/
def parse_amount_l (raw : Chars) : Option ℚ :=
  match moneySearchL raw with
  | none => none
  | some g => floatOfChars (normaliseAmount g)

def parse_amount (raw : String) : Option ℚ := parse_amount_l raw.data

/-! ### Spec-side money grammar

Written from the specification's words: "optional currency symbol,
integer part with optional grouping by `,`, `.`, or space, then a
decimal separator and 1–2 digits".  -/

/-- One grouping block: a separator followed by exactly three digits. -/
def GroupBlock (b : Chars) : Prop :=
  ∃ s d1 d2 d3, b = [s, d1, d2, d3] ∧ isSep3C s ∧ isDigitC d1 ∧ isDigitC d2 ∧ isDigitC d3

/-- Decimal separator followed by one or two digits. -/
def TailPart (t : Chars) : Prop :=
  ∃ c e, t = c :: e ∧ isDecC c ∧ e ≠ [] ∧ e.length ≤ 2 ∧ e.all isDigitC

def StarTailShape (m : Chars) : Prop :=
  ∃ (bs : List Chars) (t : Chars),
    m = bs.flatten ++ t ∧ (∀ b ∈ bs, GroupBlock b) ∧ TailPart t

/-- The full money shape: 1–7 digits of integer part, grouping blocks,
then the decimal tail. -/
def SpecMoneyShape (m : Chars) : Prop :=
  ∃ d st, m = d ++ st ∧ d ≠ [] ∧ d.length ≤ 7 ∧ d.all isDigitC ∧ StarTailShape st

/-- `m` occurs as a contiguous substring of `l`. -/
def IsSub (m l : Chars) : Prop := ∃ p s, l = p ++ m ++ s


/-! ### A small matching engine for the remaining source regexes

A matcher returns all (consumed, rest) splits in Python `re` preference
order (greedy: longest first; lazy: shortest first; alternatives in
written order).  All quantified subpatterns of the source regexes apply
to single character classes, so bounded-repetition matchers plus
sequencing with full backtracking reproduce `re.match` exactly; the one
composite subpattern (the `_CURRENCY_RE` group) only ever appears as the
final element of a pattern, where its first (preferred) result is the
only one Python would use. -/

def Matcher : Type := Chars → List (Chars × Chars)

def mEps : Matcher := fun l => [([], l)]

/-- `$` at the end of a pattern applied to a stripped line. -/
def mEnd : Matcher := fun l => if l.isEmpty then [([], l)] else []

/-- A single character of class `p`. -/
def mcls (p : Char → Bool) : Matcher := fun l =>
  match l with
  | c :: r => if p c then [([c], r)] else []
  | [] => []

def mseq (a b : Matcher) : Matcher := fun l =>
  (a l).flatMap fun pr => (b pr.2).map fun qr => (pr.1 ++ qr.1, qr.2)

def mseqs (ms : List Matcher) : Matcher := ms.foldr mseq mEps

/-- Ordered alternation `(?:x|y|...)`. -/
def malts (ms : List Matcher) : Matcher := fun l => ms.flatMap fun m => m l

/-- Greedy `?`. -/
def mopt (a : Matcher) : Matcher := fun l => a l ++ [([], l)]

/-- Case-insensitive literal (`re.IGNORECASE`). -/
def mlitCI (w : Chars) : Matcher :=
  mseqs (w.map fun c => mcls (fun x => lowerC x = lowerC c))

def repCounts (lo : Nat) (hi : Option Nat) (greedy : Bool) (avail : Nat) : List Nat :=
  let top := min (hi.getD avail) avail
  if top < lo then []
  else if greedy then (List.range (top - lo + 1)).map fun i => top - i
  else (List.range (top - lo + 1)).map fun i => lo + i

/-- `p{lo,hi}` / `p{lo,hi}?` over a character class. -/
def mrep (p : Char → Bool) (lo : Nat) (hi : Option Nat) (greedy : Bool) : Matcher :=
  fun l => (repCounts lo hi greedy (countWhile p l)).map fun k => (l.take k, l.drop k)

/-- The `_CURRENCY_RE` capture group as a final pattern element. -/
def mCoreFirst : Matcher := fun l =>
  match matchCore l with
  | some (g, r) => [(g, r)]
  | none => []

/-- One pattern element; `cap` marks a capture group. -/
structure Seg where
  cap : Bool
  m : Matcher

/-- Backtracking run of a segment list: all (consumed, groups, rest)
triples in preference order. -/
def runSegs : List Seg → Chars → List (Chars × List Chars × Chars)
  | [], l => [([], [], l)]
  | s :: rest, l =>
    (s.m l).flatMap fun pr =>
      (runSegs rest pr.2).map fun tr =>
        (pr.1 ++ tr.1, (if s.cap then [pr.1] else []) ++ tr.2.1, tr.2.2)

/-- `pattern.match(line)`: first (preferred) result. -/
def matchSegs (segs : List Seg) (l : Chars) : Option (Chars × List Chars × Chars) :=
  (runSegs segs l).head?

/-- `re.findall`: leftmost, non-overlapping scan. -/
def findAllAux (segs : List Seg) : Nat → Chars → List (Chars × List Chars)
  | 0, _ => []
  | fuel + 1, l =>
    match (runSegs segs l).head? with
    | some (cons, gs, rest) =>
      if cons.isEmpty then
        (cons, gs) :: (match l with | [] => [] | _ :: r => findAllAux segs fuel r)
      else (cons, gs) :: findAllAux segs fuel rest
    | none => match l with | [] => [] | _ :: r => findAllAux segs fuel r

def findAll (segs : List Seg) (l : Chars) : List (Chars × List Chars) :=
  findAllAux segs (l.length + 1) l

/-! ### Noise-line filter `_NOISE`

`(?:^|\b)(subtotal|...)(?:\b|$)` with `re.search` truthiness.  Every
noise word begins and ends with a letter, so the left boundary holds at
position 0 or after a non-word character, and the right boundary at end
of line or before a non-word character. -/

def noiseWords : List Chars :=
  ["subtotal", "sub total", "sub-total", "total", "grand total",
   "tax", "gst", "vat", "sales tax", "hst", "pst", "tip", "gratuity", "service",
   "change", "cash", "visa", "mastercard", "amex", "debit", "credit", "card",
   "thank", "you", "welcome", "come again", "refund", "void",
   "date", "time", "receipt", "invoice", "order", "transaction", "terminal",
   "register", "tel", "phone", "fax", "email", "www", "http"].map String.data

/-- Case-insensitive literal match returning the rest. -/
def litCIAt : Chars → Chars → Option Chars
  | [], l => some l
  | _ :: _, [] => none
  | c :: w, x :: l => if lowerC x = lowerC c then litCIAt w l else none

def noiseHereB (l : Chars) : Bool :=
  noiseWords.any fun w =>
    match litCIAt w l with
    | some [] => true
    | some (c :: _) => !isWordC c
    | none => false

def noiseScanB (ok : Bool) : Chars → Bool
  | [] => ok && noiseHereB []
  | c :: r => (ok && noiseHereB (c :: r)) || noiseScanB (!isWordC c) r

def hasNoise (l : Chars) : Bool := noiseScanB true l

/-! ### `NLPExtractor.extract_merchant` -/

def merchant_kw : List Chars :=
  ["store", "market", "shop", "mart", "center", "supercenter",
   "restaurant", "cafe", "deli", "pharmacy", "gas", "station",
   "supermarket", "bakery", "grill", "pizza", "chicken",
   "dollar", "family", "foods", "fresh", "wholesale",
   "depot", "outlet", "express", "stop", "corner",
   "inc", "llc", "ltd", "corp", "co"].map String.data

def isCur3 (c : Char) : Bool := c = '$' || c = '£' || c = '€'

/-- `\s+[\$\£\€]?\s*\d+[.,]\d{2}\s*$` (trailing-price stripper). -/
def priceTailSegs : List Seg :=
  [⟨false, mrep isSpaceC 1 none true⟩, ⟨false, mopt (mcls isCur3)⟩,
   ⟨false, mrep isSpaceC 0 none true⟩, ⟨false, mrep isDigitC 1 none true⟩,
   ⟨false, mcls isDecC⟩, ⟨false, mcls isDigitC⟩, ⟨false, mcls isDigitC⟩,
   ⟨false, mrep isSpaceC 0 none true⟩, ⟨false, mEnd⟩]

/-- `\s*[\(\d][\d\-\(\) ]{6,}$` (trailing phone-number stripper). -/
def phoneTailSegs : List Seg :=
  [⟨false, mrep isSpaceC 0 none true⟩,
   ⟨false, mcls (fun c => c = '(' || isDigitC c)⟩,
   ⟨false, mrep (fun c => isDigitC c || c = '-' || c = '(' || c = ')' || c = ' ') 6 none true⟩,
   ⟨false, mEnd⟩]

/-- `re.sub(pat, "", line)` for an end-anchored pattern: drop the
leftmost match (which necessarily extends to the end of the line). -/
def removeTailMatch (segs : List Seg) : Chars → Chars
  | [] => []
  | c :: r =>
    if (runSegs segs (c :: r)).head?.isSome then []
    else c :: removeTailMatch segs r

def nonEmptyLines (text : Chars) : List Chars :=
  ((splitChar '\n' text).map trimL).filter (fun l => l ≠ [])

def _clean_merchant (raw : Chars) : Chars := trimL (removeTailMatch phoneTailSegs raw)

def stripPrice (line : Chars) : Chars := trimL (removeTailMatch priceTailSegs line)

/-- Strategy 1: merchant-keyword line among the first 6. -/
def stratKeyword (lines : List Chars) : Option Chars :=
  (lines.take 6).findSome? fun line =>
    let low := line.map lowerC
    let clean := stripPrice line
    if merchant_kw.any (fun kw => containsSub kw low) && decide (2 < clean.length)
    then some (_clean_merchant clean) else none

/-- Strategy 2: mostly-alphabetic non-noise line among the first 6. -/
def stratAlpha (lines : List Chars) : Option Chars :=
  (lines.take 6).findSome? fun line =>
    if line.length < 3 then none
    else
      let clean := stripPrice line
      if clean.length < 3 then none
      else
        let alphaCount := (clean.filter (fun c => c.isAlpha || c = ' ')).length
        if 7 * clean.length < 10 * alphaCount && !hasNoise clean
        then some (_clean_merchant clean) else none

/-- Last resort: first non-trivial line among the first 3. -/
def stratFirstLine (lines : List Chars) : Option Chars :=
  (lines.take 3).findSome? fun line =>
    if 3 < line.length then some (_clean_merchant line) else none

/-- The three line-based strategies in source order. -/
def merchantFromLines (lines : List Chars) : Option Chars :=
  match stratKeyword lines with
  | some m => some m
  | none =>
    match stratAlpha lines with
    | some m => some m
    | none => stratFirstLine lines

/-- The trailing BERT NER step (`if bert_merchant: return bert_merchant`);
`bert` models `extract_merchant_bert`, an external model taken as input. -/
def bertFallback (bert : Option (String → Option String)) (text : String) :
    Option String :=
  match bert with
  | some f =>
    match f text with
    | some n => if n ≠ "" then some n else none
    | none => none
  | none => none

/-- `extract_merchant`. -/
def extract_merchant (bert : Option (String → Option String)) (text : String) :
    Option String :=
  match merchantFromLines (nonEmptyLines text.data) with
  | some m => some (String.mk m)
  | none => bertFallback bert text

/-! ### `NLPExtractor.extract_date` -/

structure SimpleDate where
  year : Nat
  month : Nat
  day : Nat
deriving DecidableEq, Repr

/-- One `re.sub(rf"(?<=\d){old}(?=\d)", new, ...)` pass: replace `old`
between two digits (lookarounds see the original neighbours). -/
def normalisePass (old new : Char) : Option Char → Chars → Chars
  | _, [] => []
  | _, [c] => [c]
  | prev, c :: d :: r =>
    let keep :=
      if c = old && (match prev with | some p => isDigitC p | none => false) && isDigitC d
      then new else c
    keep :: normalisePass old new (some c) (d :: r)

def normaliseDateText (l : Chars) : Chars :=
  normalisePass 'S' '5' none
    (normalisePass 'I' '1' none
      (normalisePass 'l' '1' none
        (normalisePass 'O' '0' none l)))

def isDashSlash (c : Char) : Bool := c = '-' || c = '/'

def monthsShort : List Chars :=
  ["Jan", "Feb", "Mar", "Apr", "May", "Jun",
   "Jul", "Aug", "Sep", "Oct", "Nov", "Dec"].map String.data

def monthsLong : List Chars :=
  ["January", "February", "March", "April", "May", "June", "July",
   "August", "September", "October", "November", "December"].map String.data

def mMonthShort : Matcher := malts (monthsShort.map mlitCI)
def mMonthLong : Matcher := malts (monthsLong.map mlitCI)

def dSeg (lo hi : Nat) : Seg := ⟨false, mrep isDigitC lo (some hi) true⟩
def wsPlus : Seg := ⟨false, mrep isSpaceC 1 none true⟩
def wordStar : Seg := ⟨false, mrep isWordC 0 none true⟩
def dotOpt : Seg := ⟨false, mrep (fun c => c = '.') 0 (some 1) true⟩
def commaOpt : Seg := ⟨false, mrep (fun c => c = ',') 0 (some 1) true⟩

/-- ISO-like: 4 digits, dash-or-slash, 1-2 digits, dash-or-slash, 1-2 digits. -/
def datePat1 : List Seg :=
  [dSeg 4 4, ⟨false, mcls isDashSlash⟩, dSeg 1 2, ⟨false, mcls isDashSlash⟩, dSeg 1 2]

/-- Numeric: 1-2 digits, dash-or-slash, 1-2 digits, dash-or-slash, 2-4 digits. -/
def datePat2 : List Seg :=
  [dSeg 1 2, ⟨false, mcls isDashSlash⟩, dSeg 1 2, ⟨false, mcls isDashSlash⟩, dSeg 2 4]

/-- `\d{1,2}\.\d{1,2}\.\d{2,4}` -/
def datePat3 : List Seg :=
  [dSeg 1 2, ⟨false, mcls (fun c => c = '.')⟩, dSeg 1 2,
   ⟨false, mcls (fun c => c = '.')⟩, dSeg 2 4]

/-- `\d{1,2}\s+(?:Jan|...|Dec)\w*\.?\s+\d{2,4}` -/
def datePat4 : List Seg :=
  [dSeg 1 2, wsPlus, ⟨false, mMonthShort⟩, wordStar, dotOpt, wsPlus, dSeg 2 4]

/-- `(?:Jan|...|Dec)\w*\.?\s+\d{1,2},?\s+\d{2,4}` -/
def datePat5 : List Seg :=
  [⟨false, mMonthShort⟩, wordStar, dotOpt, wsPlus, dSeg 1 2, commaOpt, wsPlus, dSeg 2 4]

/-- `(?:January|...|December)\s+\d{1,2},?\s+\d{2,4}` -/
def datePat6 : List Seg :=
  [⟨false, mMonthLong⟩, wsPlus, dSeg 1 2, commaOpt, wsPlus, dSeg 2 4]

def datePatterns : List (List Seg) :=
  [datePat1, datePat2, datePat3, datePat4, datePat5, datePat6]

def padDigits (width n : Nat) : Chars :=
  let ds := Nat.toDigits 10 n
  List.replicate (width - ds.length) '0' ++ ds

/-- `parsed.strftime("%Y-%m-%d")`. -/
def formatYMD (d : SimpleDate) : String :=
  String.mk (padDigits 4 d.year ++ '-' :: padDigits 2 d.month ++ '-' :: padDigits 2 d.day)

/-- `extract_date`.  `parse` is `dateutil.parser.parse(·, fuzzy=True,
dayfirst=False)`, an external library taken as an oracle (`none` models
a raised parse error); `nowYear` is `datetime.now().year`. -/
def extract_date (parse : String → Option SimpleDate) (nowYear : Nat) (text : String) :
    Option String :=
  let t := normaliseDateText text.data
  datePatterns.findSome? fun pat =>
    (findAll pat t).findSome? fun mt =>
      match parse (String.mk mt.1) with
      | some d => if nowYear + 1 < d.year then none else some (formatYMD d)
      | none => none

/-! ### `extract_total` and `extract_tax` -/

def isCur6 (c : Char) : Bool :=
  c = '$' || c = '£' || c = '€' || c = '¥' || c = '₱' || c = '₹'

/-- Words of a label joined by `\s*` (e.g. `grand\s*total`). -/
def labelWordSegs : List Chars → List Seg
  | [] => []
  | [w] => [⟨false, mlitCI w⟩]
  | w :: rest => ⟨false, mlitCI w⟩ :: ⟨false, mrep isSpaceC 0 none true⟩ :: labelWordSegs rest

/-- `label[:\s]*[\$\£\€\¥\₱\₹]?\s*(\d{1,7}(?:[,. ]\d{3})*[.,]\d{1,2})`. -/
def labelSegs (ws : List Chars) : List Seg :=
  labelWordSegs ws ++
  [⟨false, mrep (fun c => c = ':' || isSpaceC c) 0 none true⟩,
   ⟨false, mopt (mcls isCur6)⟩,
   ⟨false, mrep isSpaceC 0 none true⟩,
   ⟨true, mCoreFirst⟩]

def totalLabels : List (List Chars) :=
  [["grand", "total"], ["total", "due"], ["amount", "due"], ["balance", "due"],
   ["net", "total"], ["amt", "due"], ["total", "amount"], ["total", "sale"],
   ["total"], ["amount"], ["due"]].map (List.map String.data)

def taxLabels : List (List Chars) :=
  [["sales", "tax"], ["state", "tax"], ["county", "tax"], ["local", "tax"],
   ["tax", "amount"], ["tax"], ["gst"], ["hst"], ["pst"], ["vat"]].map (List.map String.data)

def labelMatches (lab : List Chars) (t : Chars) : List Chars :=
  (findAll (labelSegs lab) t).map fun x => x.2.headD []

def labelledAmount (labs : List (List Chars)) (t : Chars) : Option ℚ :=
  labs.findSome? fun lab =>
    match (labelMatches lab t).getLast? with
    | none => none
    | some g =>
      match parse_amount_l g with
      | some v => if 0 < v then some (round2 v) else none
      | none => none

/-- `_CURRENCY_RE.findall(text)` — the captured groups. -/
def findAllCore (t : Chars) : List Chars :=
  (findAll [⟨true, mCoreFirst⟩] t).map fun x => x.2.headD []

def extract_total (text : String) : Option ℚ :=
  match labelledAmount totalLabels text.data with
  | some v => some v
  | none =>
    let values := ((findAllCore text.data).filterMap parse_amount_l).filter (fun v => 0 < v)
    match values with
    | [] => none
    | v :: vs => some (round2 (vs.foldl max v))

def extract_tax (text : String) : Option ℚ :=
  labelledAmount taxLabels text.data

/-! ### `NLPExtractor.extract_line_items` -/

structure RLineItem where
  name : String
  quantity : Nat
  price : ℚ
  total : ℚ
deriving DecidableEq, Repr

/-- `.` without DOTALL: any character but a newline. -/
def isAnyC (c : Char) : Bool := c ≠ '\n'

/-- The item-name class `[\w\s/&\'-]`. -/
def isNameC (c : Char) : Bool :=
  isWordC c || isSpaceC c || c = '/' || c = '&' || c = '\'' || c = '-'

/-- `(\d+[.,]\d{2})`: an item-line money amount. -/
def money2M : Matcher :=
  mseqs [mrep isDigitC 1 none true, mcls isDecC, mcls isDigitC, mcls isDigitC]

def money2Cap : Seg := ⟨true, money2M⟩
def money2Plain : Seg := ⟨false, money2M⟩
def curOpt : Seg := ⟨false, mopt (mcls isCur3)⟩
def ws0 : Seg := ⟨false, mrep isSpaceC 0 none true⟩
def ws1 : Seg := ⟨false, mrep isSpaceC 1 none true⟩
def wsGap : Seg := ⟨false, mrep isSpaceC 2 none true⟩
def endSeg : Seg := ⟨false, mEnd⟩

/-- `(\d+)\s*[xX×]\s+(.+?)\s+[\$\£\€]?\s*(\d+[.,]\d{2})\s*$` -/
def itemPat0 : List Seg :=
  [⟨true, mrep isDigitC 1 none true⟩, ws0,
   ⟨false, mcls (fun c => c = 'x' || c = 'X' || c = '×')⟩, ws1,
   ⟨true, mrep isAnyC 1 none false⟩, ws1, curOpt, ws0, money2Cap, ws0, endSeg]

/-- `(.+?)\s+(\d+)\s*@\s*[\$\£\€]?\s*\d+[.,]\d{2}\s+[\$\£\€]?\s*(\d+[.,]\d{2})\s*$` -/
def itemPat1 : List Seg :=
  [⟨true, mrep isAnyC 1 none false⟩, ws1, ⟨true, mrep isDigitC 1 none true⟩, ws0,
   ⟨false, mcls (fun c => c = '@')⟩, ws0, curOpt, ws0, money2Plain, ws1,
   curOpt, ws0, money2Cap, ws0, endSeg]

/-- A captured item name `([A-Za-z][\w\s/&\'-]{lo,40}?)`. -/
def nameCap (lo : Nat) : Seg :=
  ⟨true, mseq (mcls isAsciiLetter) (mrep isNameC lo (some 40) false)⟩

/-- `([A-Za-z][\w\s/&\'-]{1,40}?)\s{2,}(\d{1,4})\s+[\$\£\€]?\s*(\d+[.,]\d{2})\s*$` -/
def itemPat2 : List Seg :=
  [nameCap 1, wsGap, ⟨true, mrep isDigitC 1 (some 4) true⟩, ws1,
   curOpt, ws0, money2Cap, ws0, endSeg]

/-- `([A-Za-z][\w\s/&\'-]{1,40}?)\s{2,}[\$\£\€]?\s*(\d+[.,]\d{2})\s*$` -/
def itemPat3 : List Seg :=
  [nameCap 1, wsGap, curOpt, ws0, money2Cap, ws0, endSeg]

/-- `([A-Za-z][\w\s/&\'-]{2,40}?)\s+[\$\£\€]?\s*(\d+[.,]\d{2})\s*$` -/
def itemPat4 : List Seg :=
  [nameCap 2, ws1, curOpt, ws0, money2Cap, ws0, endSeg]

/-- Build the item for pattern 0/1 (`qty x name total` and
`name qty@unit total`): unit price back-computed from the line total. -/
def mkQtyTotalItem (qtyG nameG totalG : Chars) : Option RLineItem :=
  let qty := digitsVal qtyG
  match parse_amount_l totalG with
  | none => none
  | some tp =>
    if tp ≤ 0 then none
    else
      let unit := if qty ≠ 0 then round2 (tp / (qty : ℚ)) else tp
      some ⟨String.mk ((trimL nameG).take 60), qty, unit, round2 tp⟩

/-- Pattern 2 (`name qty price`): line total computed as `unit × qty`. -/
def mkQtyUnitItem (nameG qtyG unitG : Chars) : Option RLineItem :=
  let qty := digitsVal qtyG
  match parse_amount_l unitG with
  | none => none
  | some unit =>
    let tp := round2 (unit * (qty : ℚ))
    if tp ≤ 0 then none
    else some ⟨String.mk ((trimL nameG).take 60), qty, unit, round2 tp⟩

/-- Patterns 3/4 (`name price`): quantity 1. -/
def mkUnitItem (nameG totalG : Chars) : Option RLineItem :=
  match parse_amount_l totalG with
  | none => none
  | some tp =>
    if tp ≤ 0 then none
    else some ⟨String.mk ((trimL nameG).take 60), 1, tp, round2 tp⟩

/-- The per-line cascade of `extract_line_items` (first matching pattern
wins; a discarded parse breaks without trying later patterns). -/
def processLine (line : Chars) : Option RLineItem :=
  if line.length < 4 then none
  else if hasNoise line then none
  else
    match matchSegs itemPat0 line with
    | some (_, [g0, g1, g2], _) => mkQtyTotalItem g0 g1 g2
    | some _ => none
    | none =>
      match matchSegs itemPat1 line with
      | some (_, [g0, g1, g2], _) => mkQtyTotalItem g1 g0 g2
      | some _ => none
      | none =>
        match matchSegs itemPat2 line with
        | some (_, [g0, g1, g2], _) => mkQtyUnitItem g0 g1 g2
        | some _ => none
        | none =>
          match matchSegs itemPat3 line with
          | some (_, [g0, g1], _) => mkUnitItem g0 g1
          | some _ => none
          | none =>
            match matchSegs itemPat4 line with
            | some (_, [g0, g1], _) => mkUnitItem g0 g1
            | some _ => none
            | none => none

def extract_line_items (text : String) : List RLineItem :=
  (splitChar '\n' text.data).filterMap fun raw => processLine (trimL raw)

/-! ### `_calculate_confidence` and `extract` -/

def _calculate_confidence (merchant : Option String) (date : Option String)
    (total tax : Option ℚ) (items : List RLineItem) (ocr : ℚ) : ℚ :=
  let s0 := ocr * (1/2)
  let s1 := if merchant.isSome then s0 + 1/10 else s0
  let s2 := if date.isSome then s1 + 15/100 else s1
  let s3 := if total.isSome then s2 + 2/10 else s2
  let s4 := if tax.isSome then s3 + 5/100 else s3
  let s5 := if !items.isEmpty then min 1 (s4 + 1/10) else s4
  round2 (min s5 1)

structure Extraction where
  merchant_name : Option String
  receipt_date : Option String
  total_amount : Option ℚ
  tax_amount : Option ℚ
  line_items : List RLineItem
  confidence_score : ℚ
deriving DecidableEq, Repr

/-- `NLPExtractor.extract`. -/
def extract (parse : String → Option SimpleDate) (nowYear : Nat)
    (bert : Option (String → Option String)) (text : String) (ocr : ℚ) : Extraction :=
  let merchant := extract_merchant bert text
  let date := extract_date parse nowYear text
  let total := extract_total text
  let tax := extract_tax text
  let items := extract_line_items text
  ⟨merchant, date, total, tax, items,
   _calculate_confidence merchant date total tax items ocr⟩

/-! ### `OCRService.extract_text`

The OCR backends are external; the embedding takes the per-variant
outcome of `_run_single` (`none` models an invocation that raised) and
the outcome of the EasyOCR fallback on the first variant. -/

structure OCRAttempt where
  text : String
  conf : ℚ
deriving DecidableEq, Repr

structure OCRResult where
  raw_text : String
  raw_text_with_lines : String
  confidence : ℚ
  engine : String
  word_count : Nat
deriving DecidableEq, Repr

/-- `conf * (1.0 + min(word_count / 100, 1.0))`. -/
def ocrScore (a : OCRAttempt) : ℚ :=
  a.conf * (1 + min (((wordsOf a.text.data).length : ℚ) / 100) 1)

/-- `OCRService.clean_text`. -/
def clean_text (l : Chars) : Chars :=
  let cleaned := ((splitChar '\n' l).map fun line =>
    trimL (collapseBlanks line)).filter (fun line => line ≠ [])
  (cleaned.intersperse ['\n']).flatten
where
  /-- `re.sub(r"[ \t]+", " ", line)`: each run of blanks becomes one space. -/
  collapseBlanks : Chars → Chars
    | [] => []
    | c :: r =>
      if c = ' ' || c = '\t' then
        match r with
        | [] => [' ']
        | d :: _ =>
          if d = ' ' || d = '\t' then collapseBlanks r
          else ' ' :: collapseBlanks r
      else c :: collapseBlanks r

def ocrStep (best : String × ℚ) (o : Option OCRAttempt) : String × ℚ :=
  match o with
  | none => best
  | some a => if best.2 < ocrScore a then (a.text, ocrScore a) else best

/-- The running best (text, score) after the per-variant loop. -/
def ocrBest0 (attempts : List (Option OCRAttempt)) : String × ℚ :=
  attempts.foldl ocrStep ("", -1)

/-- The best (text, confidence, engine) after the EasyOCR fallback step. -/
def ocrBest1 (attempts : List (Option OCRAttempt)) (engine : String)
    (fallbackResult : Option OCRAttempt) : String × ℚ × String :=
  if (ocrBest0 attempts).2 < 45/100 ∧ engine ≠ "easyocr" ∧ attempts ≠ [] then
    match fallbackResult with
    | some a =>
      if (ocrBest0 attempts).2 < a.conf then (a.text, a.conf, "easyocr")
      else ((ocrBest0 attempts).1, (ocrBest0 attempts).2, engine)
    | none => ((ocrBest0 attempts).1, (ocrBest0 attempts).2, engine)
  else ((ocrBest0 attempts).1, (ocrBest0 attempts).2, engine)

/-- `OCRService.extract_text` over the attempt outcomes. -/
def extract_text (attempts : List (Option OCRAttempt)) (engine : String)
    (fallbackResult : Option OCRAttempt) : OCRResult :=
  ⟨String.mk (clean_text (ocrBest1 attempts engine fallbackResult).1.data),
   (ocrBest1 attempts engine fallbackResult).1,
   min (ocrBest1 attempts engine fallbackResult).2.1 1,
   (ocrBest1 attempts engine fallbackResult).2.2,
   (wordsOf (clean_text (ocrBest1 attempts engine fallbackResult).1.data)).length⟩

/-! ### Claim-level inputs and spec-side predicates -/

/-- The spec's seven-line Walmart transcript (single-space separated, as
`clean_text` would deliver it). -/
def walmartTranscript : String :=
  "WALMART SUPERCENTER\nDate: 01/15/2025\nMilk 2% $3.49\nBread Wheat $2.99\nSUBTOTAL $6.48\nTAX $0.52\nTOTAL $7.00"

/-- Modelled from the spec: the external lenient date parser
(`dateutil.parser.parse`, "parse leniently, month-first assumed") on
month-first slash dates `M/D/YYYY`; the only shape the transcript
scenarios need. -/
def dateutilSlash (s : String) : Option SimpleDate :=
  match splitChar '/' s.data with
  | [m, d, y] =>
    if m ≠ [] ∧ m.length ≤ 2 ∧ m.all isDigitC ∧ d ≠ [] ∧ d.length ≤ 2 ∧ d.all isDigitC ∧
       y.length = 4 ∧ y.all isDigitC ∧ 1 ≤ digitsVal m ∧ digitsVal m ≤ 12 ∧
       1 ≤ digitsVal d ∧ digitsVal d ≤ 31 then
      some ⟨digitsVal y, digitsVal m, digitsVal d⟩
    else none
  | _ => none

/-- A date oracle for the year-guard scenario: the first regex candidate
parses to five years ahead of 2026, the slash candidate to a valid date. -/
def farFutureOracle (s : String) : Option SimpleDate :=
  if s = "2031-01-02" then some ⟨2031, 1, 2⟩
  else if s = "01/15/2025" then some ⟨2025, 1, 15⟩
  else none

/-- An attempt meeting the spec's early-exit bar: confidence 0.80 and 20
recognized words. -/
def qualifyingAttempt : OCRAttempt :=
  ⟨"a a a a a a a a a a a a a a a a a a a a", 8/10⟩

/-- A later, higher-scoring attempt. -/
def laterAttempt : OCRAttempt := ⟨"better text", 95/100⟩

/-- `b` is the first attempt in `as` attaining the maximal score. -/
def IsFirstStrictMax (as : List OCRAttempt) (b : OCRAttempt) : Prop :=
  ∃ pre post, as = pre ++ b :: post ∧ (∀ x ∈ pre, ocrScore x < ocrScore b) ∧
    (∀ x ∈ as, ocrScore x ≤ ocrScore b)

/-! ### Money-parser lemmas -/

theorem IsSub.refl (l : Chars) : IsSub l l := ⟨[], [], by simp⟩

theorem IsSub.trans {a b c : Chars} (h1 : IsSub a b) (h2 : IsSub b c) : IsSub a c := by
  obtain ⟨p1, s1, rfl⟩ := h1
  obtain ⟨p2, s2, rfl⟩ := h2
  exact ⟨p2 ++ p1, s1 ++ s2, by simp⟩

theorem IsSub.cons {m l : Chars} (c : Char) (h : IsSub m l) : IsSub m (c :: l) := by
  obtain ⟨p, s, rfl⟩ := h
  exact ⟨c :: p, s, rfl⟩

theorem IsSub.reverse {m l : Chars} (h : IsSub m l) : IsSub m.reverse l.reverse := by
  obtain ⟨p, s, rfl⟩ := h
  exact ⟨s.reverse, p.reverse, by simp⟩

theorem dropWhile_isSub (p : Char → Bool) (l : Chars) : IsSub (l.dropWhile p) l := by
  induction l with
  | nil => exact IsSub.refl []
  | cons c r ih =>
    by_cases h : p c
    · simpa [List.dropWhile, h] using ih.cons c
    · simpa [List.dropWhile, h] using IsSub.refl (c :: r)

theorem trimL_isSub (l : Chars) : IsSub (trimL l) l := by
  have h1 : IsSub (l.dropWhile isSpaceC) l := dropWhile_isSub _ l
  have h2 : IsSub ((l.dropWhile isSpaceC).reverse.dropWhile isSpaceC)
      (l.dropWhile isSpaceC).reverse := dropWhile_isSub _ _
  have h3 := h2.reverse
  rw [List.reverse_reverse] at h3
  exact (h3.trans h1)

theorem isSub_dropWhile_of_head {c : Char} {m' l : Chars}
    (h : IsSub (c :: m') l) (hc : isSpaceC c = false) :
    IsSub (c :: m') (l.dropWhile isSpaceC) := by
  induction l with
  | nil => obtain ⟨p, s, hp⟩ := h; simp at hp
  | cons x r ih =>
    obtain ⟨p, s, hp⟩ := h
    match p, hp with
    | [], hp =>
      have hx : x = c := by simpa using congrArg (fun t => t.headD ' ') hp
      subst hx
      rw [List.dropWhile_cons_of_neg (by simp [hc])]
      exact ⟨[], s, hp⟩
    | y :: p', hp =>
      have hr : r = p' ++ (c :: m') ++ s := (by simpa using hp : _ ∧ _).2
      by_cases hy : isSpaceC x
      · rw [List.dropWhile_cons_of_pos hy]
        exact ih ⟨p', s, hr⟩
      · rw [List.dropWhile_cons_of_neg hy]
        exact ⟨y :: p', s, hp⟩

theorem shape_head {m : Chars} (h : SpecMoneyShape m) :
    ∃ c m', m = c :: m' ∧ isDigitC c := by
  obtain ⟨d, st, rfl, hne, _, hdig, _⟩ := h
  match d, hne with
  | c :: d', _ =>
    refine ⟨c, d' ++ st, by simp, ?_⟩
    simpa using (List.all_eq_true.mp hdig c (by simp))

theorem shape_last {m : Chars} (h : SpecMoneyShape m) :
    ∃ z w, m.reverse = z :: w ∧ isDigitC z := by
  obtain ⟨d, st, rfl, _, _, _, bs, t, rfl, _, c, e, rfl, _, hene, _, hedig⟩ := h
  match he : e.reverse with
  | [] => exact absurd (by simpa using congrArg List.reverse he) hene
  | z :: w =>
    have hz : z ∈ e := by
      have : z ∈ e.reverse := by rw [he]; simp
      simpa using this
    refine ⟨z, w ++ [c] ++ (d ++ bs.flatten).reverse, ?_, ?_⟩
    · have : d ++ (bs.flatten ++ c :: e) = (d ++ bs.flatten) ++ (c :: e) := by simp
      rw [this, List.reverse_append, List.reverse_cons, he]
      simp
    · exact List.all_eq_true.mp hedig z hz

theorem space_not_digit {c : Char} (hs : isSpaceC c = true) : isDigitC c = false := by
  simp only [isSpaceC, Bool.or_eq_true, decide_eq_true_eq] at hs
  rcases hs with ((((h | h) | h) | h) | h) | h <;> subst h <;> decide

theorem digit_not_space {c : Char} (hd : isDigitC c = true) : isSpaceC c = false := by
  by_contra h
  have := space_not_digit (c := c) (by simpa using Bool.of_not_eq_false h)
  rw [hd] at this; cases this

theorem matchTail_sound : ∀ {l t r : Chars}, matchTail l = some (t, r) →
    l = t ++ r ∧ TailPart t := by
  intro l t r h
  match l with
  | [] => simp [matchTail] at h
  | [c] => simp [matchTail] at h
  | [c, d1] =>
    rw [matchTail] at h
    split at h
    · rename_i hcond
      obtain ⟨h1, h2⟩ := Bool.and_eq_true_iff.mp hcond
      cases h
      exact ⟨rfl, c, [d1], rfl, h1, by simp, by simp, by simp [h2]⟩
    · cases h
  | c :: d1 :: d2 :: rest =>
    rw [matchTail] at h
    split at h
    · rename_i hcond
      obtain ⟨h12, h3⟩ := Bool.and_eq_true_iff.mp hcond
      obtain ⟨h1, h2⟩ := Bool.and_eq_true_iff.mp h12
      cases h
      exact ⟨rfl, c, [d1, d2], rfl, h1, by simp, by simp, by simp [h2, h3]⟩
    · split at h
      · rename_i hcond
        obtain ⟨h1, h2⟩ := Bool.and_eq_true_iff.mp hcond
        cases h
        exact ⟨rfl, c, [d1], rfl, h1, by simp, by simp, by simp [h2]⟩
      · cases h

theorem matchTail_isSome {c : Char} {e r : Chars}
    (hc : isDecC c) (hne : e ≠ []) (hlen : e.length ≤ 2) (hdig : e.all isDigitC) :
    (matchTail (c :: e ++ r)).isSome := by
  match e, hne with
  | [d1], _ =>
    have h1 : isDigitC d1 := by simpa using hdig
    match r with
    | [] => simp [matchTail, hc, h1]
    | x :: r' =>
      show (matchTail (c :: d1 :: x :: r')).isSome
      rw [matchTail]
      split
      · simp
      · simp [hc, h1]
  | [d1, d2], _ =>
    have h1 : isDigitC d1 := by simp [List.all_cons] at hdig; exact hdig.1
    have h2 : isDigitC d2 := by simp [List.all_cons] at hdig; exact hdig.2
    show (matchTail (c :: d1 :: d2 :: r)).isSome
    rw [matchTail]
    rw [if_pos (by simp [hc, h1, h2])]
    simp
  | d1 :: d2 :: d3 :: e', _ => simp at hlen

theorem TailPart.star {t : Chars} (h : TailPart t) : StarTailShape t :=
  ⟨[], t, by simp, by simp, h⟩

theorem matchStarTail_of_tail : ∀ {l : Chars}, (matchTail l).isSome →
    (matchStarTail l).isSome := by
  intro l h
  match l with
  | s :: a :: b :: c :: r =>
    rw [matchStarTail]
    split
    · match hrec : matchStarTail r with
      | some (m, r') => simp
      | none => simpa [hrec] using h
    · exact h
  | [] => simpa [matchStarTail] using h
  | [x] => simpa [matchStarTail] using h
  | [x, y] => simpa [matchStarTail] using h
  | [x, y, z] => simpa [matchStarTail] using h

theorem matchStarTail_sound : ∀ (n : Nat) (l : Chars), l.length ≤ n →
    ∀ {m r : Chars}, matchStarTail l = some (m, r) → l = m ++ r ∧ StarTailShape m := by
  intro n
  induction n with
  | zero =>
    intro l hl m r h
    match l, hl with
    | [], _ => simp [matchStarTail, matchTail] at h
  | succ n ih =>
    intro l hl m r h
    match l with
    | s :: a :: b :: c :: rest =>
      rw [matchStarTail] at h
      split at h
      · rename_i hcond
        have hconds := Bool.and_eq_true_iff.mp hcond
        have hc3 := hconds.2
        have hconds2 := Bool.and_eq_true_iff.mp hconds.1
        have hc2 := hconds2.2
        have hconds3 := Bool.and_eq_true_iff.mp hconds2.1
        match hrec : matchStarTail rest with
        | some (m', r') =>
          rw [hrec] at h
          cases h
          have hrlen : rest.length ≤ n := by simp at hl; omega
          obtain ⟨heq, bs, t, rfl, hbs, ht⟩ := ih rest hrlen hrec
          refine ⟨by simp [heq], [s, a, b, c] :: bs, t, by simp, ?_, ht⟩
          intro x hx
          rcases List.mem_cons.mp hx with hx | hx
          · exact hx ▸ ⟨s, a, b, c, rfl, hconds3.1, hconds3.2, hc2, hc3⟩
          · exact hbs x hx
        | none =>
          rw [hrec] at h
          obtain ⟨heq, ht⟩ := matchTail_sound h
          exact ⟨heq, ht.star⟩
      · obtain ⟨heq, ht⟩ := matchTail_sound h
        exact ⟨heq, ht.star⟩
    | [] => exact ⟨(matchTail_sound h).1, (matchTail_sound h).2.star⟩
    | [x] => exact ⟨(matchTail_sound h).1, (matchTail_sound h).2.star⟩
    | [x, y] => exact ⟨(matchTail_sound h).1, (matchTail_sound h).2.star⟩
    | [x, y, z] => exact ⟨(matchTail_sound h).1, (matchTail_sound h).2.star⟩

theorem matchStarTail_isSome : ∀ (bs : List Chars) {t r : Chars},
    (∀ b ∈ bs, GroupBlock b) → TailPart t →
    (matchStarTail (bs.flatten ++ (t ++ r))).isSome := by
  intro bs
  induction bs with
  | nil =>
    intro t r _ ht
    obtain ⟨c, e, rfl, hc, hne, hlen, hdig⟩ := ht
    simpa using matchStarTail_of_tail (matchTail_isSome hc hne hlen hdig)
  | cons b bs ih =>
    intro t r hbs ht
    obtain ⟨s, d1, d2, d3, rfl, hs, h1, h2, h3⟩ := hbs b (by simp)
    have hrest := ih (t := t) (r := r) (fun x hx => hbs x (by simp [hx])) ht
    show (matchStarTail (s :: d1 :: d2 :: d3 :: (bs.flatten ++ (t ++ r)))).isSome
    rw [matchStarTail]
    split
    · match hrec : matchStarTail (bs.flatten ++ (t ++ r)) with
      | some (m, r') => simp
      | none => rw [hrec] at hrest; simp at hrest
    · rename_i hcond
      simp [hs, h1, h2, h3] at hcond

theorem tryDigits_sound : ∀ (j : Nat), j ≤ 7 → ∀ {l m r : Chars},
    tryDigits j l = some (m, r) → l = m ++ r ∧ SpecMoneyShape m := by
  intro j
  induction j with
  | zero => intro _ l m r h; simp [tryDigits] at h
  | succ j ih =>
    intro hj l m r h
    rw [tryDigits] at h
    split at h
    · rename_i hcond
      match hrec : matchStarTail (l.drop (j + 1)) with
      | some (m', r') =>
        rw [hrec] at h
        cases h
        obtain ⟨heq, hst⟩ := matchStarTail_sound (l.drop (j + 1)).length _ le_rfl hrec
        constructor
        · conv_lhs => rw [← List.take_append_drop (j + 1) l]
          rw [heq]; simp
        · refine ⟨l.take (j + 1), m', rfl, ?_, ?_, hcond.2, hst⟩
          · have : (l.take (j + 1)).length = j + 1 := by
              rw [List.length_take]; omega
            intro hnil
            rw [hnil] at this
            simp at this
          · rw [List.length_take]; omega
      | none =>
        rw [hrec] at h
        exact ih (by omega) h
    · exact ih (by omega) h

theorem tryDigits_isSome : ∀ (j : Nat) (d rest : Chars), d ≠ [] → d.length ≤ j →
    d.all isDigitC → (matchStarTail rest).isSome →
    (tryDigits j (d ++ rest)).isSome := by
  intro j
  induction j with
  | zero => intro d rest hne hlen _ _; match d, hne with | c :: d', _ => simp at hlen
  | succ j ih =>
    intro d rest hne hlen hdig hstar
    rcases Nat.lt_or_ge d.length (j + 1) with hd | hd
    · rw [tryDigits]
      split
      · match hrec : matchStarTail ((d ++ rest).drop (j + 1)) with
        | some (m, r') => simp
        | none => exact ih d rest hne (by omega) hdig hstar
      · exact ih d rest hne (by omega) hdig hstar
    · have hdl : d.length = j + 1 := by omega
      rw [tryDigits]
      have htake : (d ++ rest).take (j + 1) = d := by
        rw [← hdl]; exact List.take_left d rest
      have hdrop : (d ++ rest).drop (j + 1) = rest := by
        rw [← hdl]; exact List.drop_left d rest
      rw [if_pos ⟨by simp [List.length_append]; omega, by rw [htake]; exact hdig⟩]
      rw [hdrop]
      match hrec : matchStarTail rest with
      | some (m, r') => simp
      | none => rw [hrec] at hstar; simp at hstar

theorem matchCore_sound {l m r : Chars} (h : matchCore l = some (m, r)) :
    l = m ++ r ∧ SpecMoneyShape m := tryDigits_sound 7 le_rfl h

theorem matchCore_isSome {l : Chars} (h : ∃ r, ∃ m, l = m ++ r ∧ SpecMoneyShape m) :
    (matchCore l).isSome := by
  obtain ⟨r, m, rfl, d, st, rfl, hne, hlen, hdig, bs, t, rfl, hbs, ht⟩ := h
  have : d ++ (bs.flatten ++ t) ++ r = d ++ (bs.flatten ++ (t ++ r)) := by simp
  rw [this]
  exact tryDigits_isSome 7 d _ hne (by omega) hdig (matchStarTail_isSome bs hbs ht)

theorem searchCore_sound : ∀ {l : Chars} {m : Chars}, searchCore l = some m →
    ∃ p s, l = p ++ m ++ s ∧ SpecMoneyShape m := by
  intro l
  induction l with
  | nil => intro m h; simp [searchCore] at h
  | cons c r ih =>
    intro m h
    rw [searchCore] at h
    match hcore : matchCore (c :: r) with
    | some (m', rest) =>
      rw [hcore] at h
      cases h
      obtain ⟨heq, hshape⟩ := matchCore_sound hcore
      exact ⟨[], rest, by simpa using heq, hshape⟩
    | none =>
      rw [hcore] at h
      obtain ⟨p, s, heq, hshape⟩ := ih h
      exact ⟨c :: p, s, by simp [heq], hshape⟩

theorem searchCore_isSome : ∀ (p : Chars) {l m s : Chars}, l = p ++ m ++ s →
    SpecMoneyShape m → (searchCore l).isSome := by
  intro p
  induction p with
  | nil =>
    intro l m s heq hshape
    obtain ⟨c, m', rfl, _⟩ := shape_head hshape
    subst heq
    show (searchCore (c :: (m' ++ s))).isSome
    rw [searchCore]
    match hcore : matchCore (c :: (m' ++ s)) with
    | some (mm, rest) => simp
    | none =>
      have : (matchCore (c :: m' ++ s)).isSome :=
        matchCore_isSome ⟨s, c :: m', rfl, hshape⟩
      rw [show c :: m' ++ s = c :: (m' ++ s) by simp, hcore] at this
      simp at this
  | cons x p' ih =>
    intro l m s heq hshape
    subst heq
    show (searchCore (x :: (p' ++ m ++ s))).isSome
    rw [searchCore]
    match hcore : matchCore (x :: (p' ++ m ++ s)) with
    | some (mm, rest) => simp
    | none => exact ih rfl hshape

theorem isSub_trimL_of_shape {m l : Chars} (hsub : IsSub m l) (hm : SpecMoneyShape m) :
    IsSub m (trimL l) := by
  obtain ⟨c, m', hm1, hc⟩ := shape_head hm
  obtain ⟨z, w, hm2, hz⟩ := shape_last hm
  have h1 : IsSub m (l.dropWhile isSpaceC) := by
    rw [hm1] at hsub ⊢
    exact isSub_dropWhile_of_head hsub (digit_not_space hc)
  have h2 : IsSub m.reverse (l.dropWhile isSpaceC).reverse := h1.reverse
  rw [hm2] at h2
  have h3 : IsSub (z :: w) ((l.dropWhile isSpaceC).reverse.dropWhile isSpaceC) :=
    isSub_dropWhile_of_head h2 (digit_not_space hz)
  have h4 := h3.reverse
  rw [← hm2, List.reverse_reverse] at h4
  exact h4

/-- The match stage of `_parse_amount` succeeds exactly on the strings
containing the spec's money shape. -/
theorem moneySearch_iff (l : Chars) :
    (moneySearchL l).isSome ↔ ∃ m, IsSub m l ∧ SpecMoneyShape m := by
  constructor
  · intro h
    obtain ⟨m, hm⟩ := Option.isSome_iff_exists.mp h
    obtain ⟨p, s, heq, hshape⟩ := searchCore_sound hm
    exact ⟨m, IsSub.trans ⟨p, s, heq⟩ (trimL_isSub l), hshape⟩
  · intro ⟨m, hsub, hshape⟩
    obtain ⟨p, s, heq⟩ := isSub_trimL_of_shape hsub hshape
    exact searchCore_isSome p heq hshape

/-! ### Matching-engine membership lemmas -/

theorem mem_runSegs_nil {l : Chars} {y : Chars × List Chars × Chars}
    (h : y ∈ runSegs [] l) : y = ([], [], l) := by
  simpa [runSegs] using h

theorem mem_runSegs_cons {s : Seg} {segs : List Seg} {l cons rest : Chars}
    {gs : List Chars} (h : (cons, gs, rest) ∈ runSegs (s :: segs) l) :
    ∃ x r1 c gs', (x, r1) ∈ s.m l ∧ (c, gs', rest) ∈ runSegs segs r1 ∧
      cons = x ++ c ∧ gs = (if s.cap then [x] else []) ++ gs' := by
  simp only [runSegs, List.mem_flatMap, List.mem_map] at h
  obtain ⟨⟨x, r1⟩, hx, ⟨c, gs', rest'⟩, hc, heq⟩ := h
  rw [Prod.mk.injEq, Prod.mk.injEq] at heq
  obtain ⟨h1, h2, h3⟩ := heq
  subst h1 h2 h3
  exact ⟨x, r1, c, gs', hx, hc, rfl, rfl⟩

theorem mem_mcls {p : Char → Bool} {x r l : Chars} (h : (x, r) ∈ mcls p l) :
    ∃ c, x = [c] ∧ p c ∧ l = c :: r := by
  match l with
  | [] => simp [mcls] at h
  | c :: l' =>
    simp only [mcls] at h
    split at h
    · rename_i hp
      simp at h
      exact ⟨c, h.1, hp, by rw [h.2]⟩
    · simp at h

theorem mem_mseq {a b : Matcher} {x r l : Chars} (h : (x, r) ∈ mseq a b l) :
    ∃ x1 r1 x2, (x1, r1) ∈ a l ∧ (x2, r) ∈ b r1 ∧ x = x1 ++ x2 := by
  simp only [mseq, List.mem_flatMap, List.mem_map] at h
  obtain ⟨⟨x1, r1⟩, h1, ⟨x2, r2⟩, h2, heq⟩ := h
  have hx : x1 ++ x2 = x := congrArg Prod.fst heq
  have hr : r2 = r := congrArg Prod.snd heq
  exact ⟨x1, r1, x2, h1, hr ▸ h2, hx.symm⟩

theorem countWhile_le_length (p : Char → Bool) (l : Chars) : countWhile p l ≤ l.length := by
  induction l with
  | nil => simp [countWhile]
  | cons c r ih =>
    rw [countWhile]
    split
    · simpa using ih
    · simp

theorem take_all_of_le_countWhile {p : Char → Bool} {l : Chars} {k : Nat}
    (h : k ≤ countWhile p l) : (l.take k).all p := by
  induction l generalizing k with
  | nil => simp
  | cons c r ih =>
    match k with
    | 0 => simp
    | k + 1 =>
      rw [countWhile] at h
      split at h
      · rename_i hp
        simp only [List.take_succ_cons, List.all_cons, hp, Bool.true_and]
        exact ih (by omega)
      · omega

theorem mem_repCounts {k lo avail : Nat} {hi : Option Nat} {greedy : Bool}
    (h : k ∈ repCounts lo hi greedy avail) : lo ≤ k ∧ k ≤ avail := by
  have hta : min (hi.getD avail) avail ≤ avail := min_le_right _ _
  simp only [repCounts] at h
  split at h
  · simp at h
  · rename_i htop
    split at h <;>
      (simp only [List.mem_map, List.mem_range] at h
       obtain ⟨i, hi2, rfl⟩ := h
       omega)

theorem mem_mrep {p : Char → Bool} {lo : Nat} {hi : Option Nat} {greedy : Bool}
    {x r l : Chars} (h : (x, r) ∈ mrep p lo hi greedy l) :
    x.all p ∧ lo ≤ x.length ∧ l = x ++ r := by
  simp only [mrep, List.mem_map] at h
  obtain ⟨k, hk, heq⟩ := h
  obtain ⟨hlo, hav⟩ := mem_repCounts hk
  have hx : l.take k = x := congrArg Prod.fst heq
  have hr : l.drop k = r := congrArg Prod.snd heq
  have hkl : k ≤ l.length := le_trans hav (countWhile_le_length p l)
  refine ⟨hx ▸ take_all_of_le_countWhile hav, ?_, by rw [← hx, ← hr]; simp⟩
  rw [← hx, List.length_take]
  omega

/-- Shape of a captured `(\d+[.,]\d{2})` group. -/
def Money2Shape (x : Chars) : Prop :=
  ∃ ds c e1 e2, x = ds ++ [c, e1, e2] ∧ ds ≠ [] ∧ ds.all isDigitC ∧
    isDecC c ∧ isDigitC e1 ∧ isDigitC e2

theorem mem_money2 {x r l : Chars} (h : (x, r) ∈ money2M l) : Money2Shape x := by
  simp only [money2M, mseqs, List.foldr] at h
  obtain ⟨ds, r1, x2, hds, h2, rfl⟩ := mem_mseq h
  obtain ⟨xc, r2, x3, hc, h3, rfl⟩ := mem_mseq h2
  obtain ⟨x1, r3, x4, h1, h4, rfl⟩ := mem_mseq h3
  obtain ⟨x2', r4, x5, h2', h5, rfl⟩ := mem_mseq h4
  have h5' : x5 = [] := by
    have h6 := (by simpa [mEps, Prod.ext_iff] using h5 : x5 = [] ∧ r = r4)
    exact h6.1
  obtain ⟨hdsall, hdslen, _⟩ := mem_mrep hds
  obtain ⟨c, rfl, hcdec, _⟩ := mem_mcls hc
  obtain ⟨e1, rfl, he1, _⟩ := mem_mcls h1
  obtain ⟨e2, rfl, he2, _⟩ := mem_mcls h2'
  subst h5'
  exact ⟨ds, c, e1, e2, by simp, by intro hnil; rw [hnil] at hdslen; simp at hdslen,
    hdsall, hcdec, he1, he2⟩

/-! ### Exactness of parsed line-item amounts

A captured `(\d+[.,]\d{2})` group parses to an integer number of cents,
so Python's `round(·, 2)` leaves it unchanged and positivity survives
the rounding. -/

theorem dec_not_digit {c : Char} (h : isDecC c) : isDigitC c = false := by
  simp only [isDecC, Bool.or_eq_true, decide_eq_true_eq] at h
  rcases h with h | h <;> subst h <;> decide

theorem dec_not_space {c : Char} (h : isDecC c) : isSpaceC c = false := by
  simp only [isDecC, Bool.or_eq_true, decide_eq_true_eq] at h
  rcases h with h | h <;> subst h <;> decide

theorem digit_ne_of {c x : Char} (hd : isDigitC c) (hx : isDigitC x = false) : c ≠ x := by
  intro h; rw [h, hx] at hd; cases hd

theorem dropWhile_eq_self_of {p : Char → Bool} {l : Chars}
    (h : ∀ c ∈ l, p c = false) : l.dropWhile p = l := by
  match l with
  | [] => rfl
  | c :: r => exact List.dropWhile_cons_of_neg (by simp [h c (by simp)])

theorem trimL_eq_self {l : Chars} (h : ∀ c ∈ l, isSpaceC c = false) : trimL l = l := by
  unfold trimL
  rw [dropWhile_eq_self_of h, dropWhile_eq_self_of (fun c hc => h c (by simpa using hc)),
    List.reverse_reverse]

def nonDigitB (c : Char) : Bool := !isDigitC c

theorem countP_eq_zero_of_digits {l : Chars} (h : l.all isDigitC) :
    l.countP nonDigitB = 0 := by
  rw [List.countP_eq_zero]
  intro a ha
  simp [nonDigitB, List.all_eq_true.mp h a ha]

theorem dgOne_two {l : Chars} (h : dgOne l = true) : 2 ≤ l.countP nonDigitB := by
  match l with
  | [] | [_] | [_, _] | [_, _, _] | [_, _, _, _] | [_, _, _, _, _] | [_, _, _, _, _, _] =>
    simp [dgOne] at h
  | z1 :: c1 :: y3 :: y2 :: y1 :: c2 :: x :: w =>
    simp only [dgOne, Bool.and_eq_true, decide_eq_true_eq] at h
    obtain ⟨⟨⟨⟨⟨⟨_, hc1⟩, _⟩, _⟩, _⟩, hc2⟩, _⟩ := h
    subst hc1 hc2
    have h1 : nonDigitB ',' = true := by decide
    have h2 : nonDigitB '.' = true := by decide
    simp only [List.countP_cons, h1, h2, if_true]
    split_ifs <;> omega

theorem dgTwo_two {l : Chars} (h : dgTwo l = true) : 2 ≤ l.countP nonDigitB := by
  match l with
  | [] | [_] | [_, _] | [_, _, _] | [_, _, _, _] | [_, _, _, _, _] | [_, _, _, _, _, _]
  | [_, _, _, _, _, _, _] =>
    simp [dgTwo] at h
  | z2 :: z1 :: c1 :: y3 :: y2 :: y1 :: c2 :: x :: w =>
    simp only [dgTwo, Bool.and_eq_true, decide_eq_true_eq] at h
    obtain ⟨⟨⟨⟨⟨⟨⟨_, _⟩, hc1⟩, _⟩, _⟩, _⟩, hc2⟩, _⟩ := h
    subst hc1 hc2
    have h1 : nonDigitB ',' = true := by decide
    have h2 : nonDigitB '.' = true := by decide
    simp only [List.countP_cons, h1, h2, if_true]
    split_ifs <;> omega

theorem dotGrouped_two {s : Chars} (h : dotGroupedB s = true) :
    2 ≤ s.countP nonDigitB := by
  rw [← List.countP_reverse]
  rw [dotGroupedB, Bool.or_eq_true] at h
  rcases h with h | h
  · exact dgOne_two h
  · exact dgTwo_two h

theorem takeWhile_append_stop {p : Char → Bool} {d : Chars} {x : Char} {e : Chars}
    (hd : ∀ c ∈ d, p c = true) (hx : p x = false) :
    (d ++ x :: e).takeWhile p = d ∧ (d ++ x :: e).dropWhile p = x :: e := by
  induction d with
  | nil => simp [List.takeWhile_cons, List.dropWhile_cons, hx]
  | cons c d' ih =>
    have hc : p c = true := hd c (by simp)
    have ih' := ih (fun c hc => hd c (by simp [hc]))
    simp [List.takeWhile_cons, List.dropWhile_cons, hc, ih'.1, ih'.2]

theorem filter_eq_self_of {p : Char → Bool} {l : Chars} (h : ∀ c ∈ l, p c = true) :
    l.filter p = l := List.filter_eq_self.mpr h

theorem takeWhile_eq_self_of {p : Char → Bool} {l : Chars} (h : ∀ c ∈ l, p c = true) :
    l.takeWhile p = l := by
  induction l with
  | nil => rfl
  | cons c r ih =>
    rw [List.takeWhile_cons, if_pos (h c (by simp)), ih (fun c hc => h c (by simp [hc]))]

theorem dropWhile_eq_nil_of {p : Char → Bool} {l : Chars} (h : ∀ c ∈ l, p c = true) :
    l.dropWhile p = [] := by
  induction l with
  | nil => rfl
  | cons c r ih =>
    rw [List.dropWhile_cons, if_pos (h c (by simp))]
    exact ih (fun c hc => h c (by simp [hc]))

/-- `digitsVal` of a two-digit decimal part as cents. -/
theorem parse_grain_money2 {x : Chars} {q : ℚ} (hx : Money2Shape x)
    (hp : parse_amount_l x = some q) : ∃ n : ℕ, q = (n : ℚ) / 100 := by
  obtain ⟨ds, c, e1, e2, rfl, hdsne, hdsall, hcdec, he1, he2⟩ := hx
  -- every character of the group is a digit or the single decimal separator
  have hmem : ∀ a ∈ ds ++ [c, e1, e2], isSpaceC a = false := by
    intro a ha
    rcases List.mem_append.mp ha with ha | ha
    · exact digit_not_space (List.all_eq_true.mp hdsall a ha)
    · rcases (by simpa using ha : a = c ∨ a = e1 ∨ a = e2) with rfl | rfl | rfl
      · exact dec_not_space hcdec
      · exact digit_not_space he1
      · exact digit_not_space he2
  have hcount : (ds ++ [c, e1, e2]).countP nonDigitB = 1 := by
    rw [List.countP_append, countP_eq_zero_of_digits hdsall]
    have hc : nonDigitB c = true := by simp [nonDigitB, dec_not_digit hcdec]
    have hne1 : nonDigitB e1 = false := by simp [nonDigitB, he1]
    have hne2 : nonDigitB e2 = false := by simp [nonDigitB, he2]
    simp [List.countP_cons, hc, hne1, hne2]
  -- run the parser
  rw [parse_amount_l, moneySearchL, trimL_eq_self hmem] at hp
  match hsc : searchCore (ds ++ [c, e1, e2]) with
  | none => rw [hsc] at hp; cases hp
  | some m =>
    rw [hsc] at hp
    obtain ⟨p, s, heq, hshape⟩ := searchCore_sound hsc
    -- the found group is a sublist, hence has at most one non-digit
    have hsub : List.Sublist m (ds ++ [c, e1, e2]) := by
      rw [heq]
      refine List.Sublist.trans (List.sublist_append_left m s) ?_
      have h7 := List.sublist_append_right p (m ++ s)
      rwa [← List.append_assoc] at h7
    have hmle : m.countP nonDigitB ≤ 1 := hcount ▸ hsub.countP_le nonDigitB
    obtain ⟨d, st, rfl, hdne, hdlen, hddig, bs, t, rfl, hbs, ct, e, rfl, hctdec, hene,
      helen, hedig⟩ := hshape
    -- no grouping blocks are possible
    have hbsnil : bs = [] := by
      match bs, hbs with
      | [], _ => rfl
      | b :: bs', hbs =>
        exfalso
        obtain ⟨s4, p1, p2, p3, rfl, hs4, -, -, -⟩ := hbs b (List.mem_cons_self b bs')
        have hs4nd : nonDigitB s4 = true := by
          simp only [isSep3C, Bool.or_eq_true, decide_eq_true_eq] at hs4
          rcases hs4 with (h | h) | h <;> subst h <;> decide
        have hctnd : nonDigitB ct = true := by simp [nonDigitB, dec_not_digit hctdec]
        rw [List.countP_append, List.countP_append] at hmle
        have hA : 0 < (([s4, p1, p2, p3] :: bs').flatten).countP nonDigitB :=
          List.countP_pos_iff.mpr ⟨s4, by simp, hs4nd⟩
        have hB : 0 < (ct :: e).countP nonDigitB :=
          List.countP_pos_iff.mpr ⟨ct, by simp, hctnd⟩
        omega
    subst hbsnil
    simp only [List.flatten_nil, List.nil_append] at hp heq hmle
    -- the group has no spaces, so the space filter is the identity
    have hmnospace : ∀ a ∈ d ++ ct :: e, a ≠ ' ' := by
      intro a ha
      have : a ∈ ds ++ [c, e1, e2] := hsub.mem (by simpa using ha)
      intro hsp
      have := hmem a this
      rw [hsp] at this
      cases this
    have hmfilter : (d ++ ct :: e).filter (fun a => a ≠ ' ') = d ++ ct :: e :=
      filter_eq_self_of (by intro a ha; simpa using hmnospace a ha)
    have hdg : dotGroupedB (d ++ ct :: e) = false := by
      cases hdgv : dotGroupedB (d ++ ct :: e) with
      | false => rfl
      | true => exact absurd hmle (by have := dotGrouped_two hdgv; omega)
    rw [normaliseAmount] at hp
    simp only [hmfilter, hdg, Bool.false_eq_true, if_false] at hp
    have hddig' : ∀ a ∈ d, isDigitC a := fun a ha => List.all_eq_true.mp hddig a ha
    rcases (by simpa [isDecC] using hctdec : ct = '.' ∨ ct = ',') with rfl | rfl
    · -- dot-decimal: the comma filter is the identity and the dot splits d from e
      have hfilter2 : (d ++ '.' :: e).filter (fun a => a ≠ ',') = d ++ '.' :: e := by
        refine filter_eq_self_of ?_
        intro a ha
        rcases List.mem_append.mp ha with ha | ha
        · simpa using digit_ne_of (hddig' a ha) (by decide)
        · rcases (by simpa using ha : a = '.' ∨ a ∈ e) with rfl | ha
          · simp
          · simpa using digit_ne_of (List.all_eq_true.mp hedig a ha) (by decide)
      rw [hfilter2, floatOfChars] at hp
      have hspan := List.span_eq_take_drop (fun a => a ≠ '.') (d ++ '.' :: e)
      obtain ⟨htk, hdr⟩ := takeWhile_append_stop (p := fun a => a ≠ '.')
        (d := d) (x := '.') (e := e)
        (fun a ha => by simpa using digit_ne_of (hddig' a ha) (by decide)) (by simp)
      rw [hspan, htk, hdr] at hp
      simp only [] at hp
      rw [if_pos ⟨Or.inl hdne, hddig, hedig⟩] at hp
      have hq : q = (digitsVal d : ℚ) + (digitsVal e : ℚ) / (10 ^ e.length : ℕ) :=
        (Option.some.injEq .. ▸ hp).symm
      match e, hene, helen with
      | [x1], _, _ =>
        refine ⟨100 * digitsVal d + 10 * digitsVal [x1], ?_⟩
        rw [hq]
        push_cast
        field_simp
        ring
      | [x1, x2], _, _ =>
        refine ⟨100 * digitsVal d + digitsVal [x1, x2], ?_⟩
        rw [hq]
        push_cast
        field_simp
        ring
      | x1 :: x2 :: x3 :: e', _, hl => simp at hl
    · -- comma-decimal: the comma filter removes the separator, leaving digits
      have hfd : d.filter (fun a => a ≠ ',') = d :=
        filter_eq_self_of (fun a ha => by
          simpa using digit_ne_of (hddig' a ha) (by decide))
      have hfe : e.filter (fun a => a ≠ ',') = e :=
        filter_eq_self_of (fun a ha => by
          simpa using digit_ne_of (List.all_eq_true.mp hedig a ha) (by decide))
      have hfilter2 : (d ++ ',' :: e).filter (fun a => a ≠ ',') = d ++ e := by
        rw [List.filter_append, hfd, List.filter_cons, if_neg (by simp), hfe]
      rw [hfilter2, floatOfChars] at hp
      have halldig : (d ++ e).all isDigitC = true := by
        rw [List.all_append]
        simp [hddig, hedig]
      have hspan := List.span_eq_take_drop (fun a => a ≠ '.') (d ++ e)
      have hne' : ∀ a ∈ d ++ e, (fun a => decide (a ≠ '.')) a = true := by
        intro a ha
        simpa using digit_ne_of (List.all_eq_true.mp halldig a ha) (by decide)
      rw [hspan, takeWhile_eq_self_of hne', dropWhile_eq_nil_of hne'] at hp
      simp only [] at hp
      rw [if_pos ⟨by simp [hdne], halldig⟩] at hp
      refine ⟨100 * digitsVal (d ++ e), ?_⟩
      have hq : q = (digitsVal (d ++ e) : ℚ) := (Option.some.injEq .. ▸ hp).symm
      rw [hq]
      push_cast
      field_simp

/-! ### Rounding lemmas -/

theorem rat_floor_eq (q : ℚ) : q.floor = ⌊q⌋ := rfl

theorem roundHE_intCast (z : ℤ) : roundHE (z : ℚ) = z := by
  rw [roundHE]
  simp only [rat_floor_eq, Int.floor_intCast, sub_self]
  norm_num

theorem round2_int100 (z : ℤ) : round2 ((z : ℚ) / 100) = (z : ℚ) / 100 := by
  rw [round2, div_mul_cancel₀ _ (by norm_num : (100 : ℚ) ≠ 0), roundHE_intCast]

theorem round2_nat100 (n : ℕ) : round2 ((n : ℚ) / 100) = (n : ℚ) / 100 := by
  have h := round2_int100 (n : ℤ)
  push_cast at h
  exact h

theorem round2_idem (q : ℚ) : round2 (round2 q) = round2 q := round2_int100 _

theorem round2_pos_of_cents {q : ℚ} (h : ∃ n : ℕ, q = (n : ℚ) / 100) (hq : 0 < q) :
    0 < round2 q := by
  obtain ⟨n, rfl⟩ := h
  rw [round2_nat100]
  exact hq

/-! ### Line-item invariants -/

theorem string_take60_le (l : Chars) : (String.mk (l.take 60)).length ≤ 60 := by
  have h : (String.mk (l.take 60)).length = (l.take 60).length := rfl
  rw [h, List.length_take]
  omega

theorem mkQtyTotalItem_shape {g0 g1 g2 : Chars} {it : RLineItem}
    (hm : Money2Shape g2) (h : mkQtyTotalItem g0 g1 g2 = some it) :
    0 < it.total ∧ it.name.length ≤ 60 := by
  rw [mkQtyTotalItem] at h
  match hp : parse_amount_l g2 with
  | none => rw [hp] at h; cases h
  | some tp =>
    rw [hp] at h
    simp only [] at h
    split at h
    · cases h
    · rename_i hpos
      cases h
      exact ⟨round2_pos_of_cents (parse_grain_money2 hm hp) (lt_of_not_le hpos),
        string_take60_le _⟩

theorem mkQtyUnitItem_shape {g0 g1 g2 : Chars} {it : RLineItem}
    (h : mkQtyUnitItem g0 g1 g2 = some it) :
    0 < it.total ∧ it.name.length ≤ 60 := by
  rw [mkQtyUnitItem] at h
  match hp : parse_amount_l g2 with
  | none => rw [hp] at h; cases h
  | some unit =>
    rw [hp] at h
    simp only [] at h
    split at h
    · cases h
    · rename_i hpos
      cases h
      refine ⟨?_, string_take60_le _⟩
      show 0 < round2 (round2 (unit * _))
      rw [round2_idem]
      exact lt_of_not_le hpos

theorem mkUnitItem_shape {g0 g1 : Chars} {it : RLineItem}
    (hm : Money2Shape g1) (h : mkUnitItem g0 g1 = some it) :
    0 < it.total ∧ it.name.length ≤ 60 := by
  rw [mkUnitItem] at h
  match hp : parse_amount_l g1 with
  | none => rw [hp] at h; cases h
  | some tp =>
    rw [hp] at h
    simp only [] at h
    split at h
    · cases h
    · rename_i hpos
      cases h
      exact ⟨round2_pos_of_cents (parse_grain_money2 hm hp) (lt_of_not_le hpos),
        string_take60_le _⟩

theorem matchSegs_mem {segs : List Seg} {l cons rest : Chars} {gs : List Chars}
    (h : matchSegs segs l = some (cons, gs, rest)) :
    (cons, gs, rest) ∈ runSegs segs l :=
  List.mem_of_mem_head? (Option.mem_def.mpr h)

theorem itemPat0_money {line cons rest : Chars} {gs : List Chars}
    (h : matchSegs itemPat0 line = some (cons, gs, rest)) :
    ∃ g0 g1 g2, gs = [g0, g1, g2] ∧ Money2Shape g2 := by
  have hm0 := matchSegs_mem h
  simp only [itemPat0, ws0, ws1, curOpt, money2Cap, endSeg] at hm0
  obtain ⟨x0, r0, c0, g0, hx0, hm1, hcons0, hgs0⟩ := mem_runSegs_cons hm0
  obtain ⟨x1, r1, c1, g1, hx1, hm2, hcons1, hgs1⟩ := mem_runSegs_cons hm1
  obtain ⟨x2, r2, c2, g2, hx2, hm3, hcons2, hgs2⟩ := mem_runSegs_cons hm2
  obtain ⟨x3, r3, c3, g3, hx3, hm4, hcons3, hgs3⟩ := mem_runSegs_cons hm3
  obtain ⟨x4, r4, c4, g4, hx4, hm5, hcons4, hgs4⟩ := mem_runSegs_cons hm4
  obtain ⟨x5, r5, c5, g5, hx5, hm6, hcons5, hgs5⟩ := mem_runSegs_cons hm5
  obtain ⟨x6, r6, c6, g6, hx6, hm7, hcons6, hgs6⟩ := mem_runSegs_cons hm6
  obtain ⟨x7, r7, c7, g7, hx7, hm8, hcons7, hgs7⟩ := mem_runSegs_cons hm7
  obtain ⟨x8, r8, c8, g8, hx8, hm9, hcons8, hgs8⟩ := mem_runSegs_cons hm8
  obtain ⟨x9, r9, c9, g9, hx9, hm10, hcons9, hgs9⟩ := mem_runSegs_cons hm9
  obtain ⟨x10, r10, c10, g10, hx10, hm11, hcons10, hgs10⟩ := mem_runSegs_cons hm10
  have hnil := mem_runSegs_nil hm11
  rw [Prod.mk.injEq, Prod.mk.injEq] at hnil
  obtain ⟨-, hglast, -⟩ := hnil
  refine ⟨x0, x4, x8, ?_, mem_money2 hx8⟩
  rw [hgs0, hgs1, hgs2, hgs3, hgs4, hgs5, hgs6, hgs7, hgs8, hgs9, hgs10, hglast]
  simp
theorem itemPat1_money {line cons rest : Chars} {gs : List Chars}
    (h : matchSegs itemPat1 line = some (cons, gs, rest)) :
    ∃ g0 g1 g2, gs = [g0, g1, g2] ∧ Money2Shape g2 := by
  have hm0 := matchSegs_mem h
  simp only [itemPat1, ws0, ws1, curOpt, money2Cap, money2Plain, endSeg] at hm0
  obtain ⟨x0, r0, c0, g0, hx0, hm1, hcons0, hgs0⟩ := mem_runSegs_cons hm0
  obtain ⟨x1, r1, c1, g1, hx1, hm2, hcons1, hgs1⟩ := mem_runSegs_cons hm1
  obtain ⟨x2, r2, c2, g2, hx2, hm3, hcons2, hgs2⟩ := mem_runSegs_cons hm2
  obtain ⟨x3, r3, c3, g3, hx3, hm4, hcons3, hgs3⟩ := mem_runSegs_cons hm3
  obtain ⟨x4, r4, c4, g4, hx4, hm5, hcons4, hgs4⟩ := mem_runSegs_cons hm4
  obtain ⟨x5, r5, c5, g5, hx5, hm6, hcons5, hgs5⟩ := mem_runSegs_cons hm5
  obtain ⟨x6, r6, c6, g6, hx6, hm7, hcons6, hgs6⟩ := mem_runSegs_cons hm6
  obtain ⟨x7, r7, c7, g7, hx7, hm8, hcons7, hgs7⟩ := mem_runSegs_cons hm7
  obtain ⟨x8, r8, c8, g8, hx8, hm9, hcons8, hgs8⟩ := mem_runSegs_cons hm8
  obtain ⟨x9, r9, c9, g9, hx9, hm10, hcons9, hgs9⟩ := mem_runSegs_cons hm9
  obtain ⟨x10, r10, c10, g10, hx10, hm11, hcons10, hgs10⟩ := mem_runSegs_cons hm10
  obtain ⟨x11, r11, c11, g11, hx11, hm12, hcons11, hgs11⟩ := mem_runSegs_cons hm11
  obtain ⟨x12, r12, c12, g12, hx12, hm13, hcons12, hgs12⟩ := mem_runSegs_cons hm12
  obtain ⟨x13, r13, c13, g13, hx13, hm14, hcons13, hgs13⟩ := mem_runSegs_cons hm13
  obtain ⟨x14, r14, c14, g14, hx14, hm15, hcons14, hgs14⟩ := mem_runSegs_cons hm14
  have hnil := mem_runSegs_nil hm15
  rw [Prod.mk.injEq, Prod.mk.injEq] at hnil
  obtain ⟨-, hglast, -⟩ := hnil
  refine ⟨x0, x2, x12, ?_, mem_money2 hx12⟩
  rw [hgs0, hgs1, hgs2, hgs3, hgs4, hgs5, hgs6, hgs7, hgs8, hgs9, hgs10, hgs11, hgs12, hgs13, hgs14, hglast]
  simp
theorem itemPat2_money {line cons rest : Chars} {gs : List Chars}
    (h : matchSegs itemPat2 line = some (cons, gs, rest)) :
    ∃ g0 g1 g2, gs = [g0, g1, g2] ∧ Money2Shape g2 := by
  have hm0 := matchSegs_mem h
  simp only [itemPat2, ws0, ws1, wsGap, curOpt, money2Cap, endSeg, nameCap] at hm0
  obtain ⟨x0, r0, c0, g0, hx0, hm1, hcons0, hgs0⟩ := mem_runSegs_cons hm0
  obtain ⟨x1, r1, c1, g1, hx1, hm2, hcons1, hgs1⟩ := mem_runSegs_cons hm1
  obtain ⟨x2, r2, c2, g2, hx2, hm3, hcons2, hgs2⟩ := mem_runSegs_cons hm2
  obtain ⟨x3, r3, c3, g3, hx3, hm4, hcons3, hgs3⟩ := mem_runSegs_cons hm3
  obtain ⟨x4, r4, c4, g4, hx4, hm5, hcons4, hgs4⟩ := mem_runSegs_cons hm4
  obtain ⟨x5, r5, c5, g5, hx5, hm6, hcons5, hgs5⟩ := mem_runSegs_cons hm5
  obtain ⟨x6, r6, c6, g6, hx6, hm7, hcons6, hgs6⟩ := mem_runSegs_cons hm6
  obtain ⟨x7, r7, c7, g7, hx7, hm8, hcons7, hgs7⟩ := mem_runSegs_cons hm7
  obtain ⟨x8, r8, c8, g8, hx8, hm9, hcons8, hgs8⟩ := mem_runSegs_cons hm8
  have hnil := mem_runSegs_nil hm9
  rw [Prod.mk.injEq, Prod.mk.injEq] at hnil
  obtain ⟨-, hglast, -⟩ := hnil
  refine ⟨x0, x2, x6, ?_, mem_money2 hx6⟩
  rw [hgs0, hgs1, hgs2, hgs3, hgs4, hgs5, hgs6, hgs7, hgs8, hglast]
  simp
theorem itemPat3_money {line cons rest : Chars} {gs : List Chars}
    (h : matchSegs itemPat3 line = some (cons, gs, rest)) :
    ∃ g0 g1, gs = [g0, g1] ∧ Money2Shape g1 := by
  have hm0 := matchSegs_mem h
  simp only [itemPat3, ws0, wsGap, curOpt, money2Cap, endSeg, nameCap] at hm0
  obtain ⟨x0, r0, c0, g0, hx0, hm1, hcons0, hgs0⟩ := mem_runSegs_cons hm0
  obtain ⟨x1, r1, c1, g1, hx1, hm2, hcons1, hgs1⟩ := mem_runSegs_cons hm1
  obtain ⟨x2, r2, c2, g2, hx2, hm3, hcons2, hgs2⟩ := mem_runSegs_cons hm2
  obtain ⟨x3, r3, c3, g3, hx3, hm4, hcons3, hgs3⟩ := mem_runSegs_cons hm3
  obtain ⟨x4, r4, c4, g4, hx4, hm5, hcons4, hgs4⟩ := mem_runSegs_cons hm4
  obtain ⟨x5, r5, c5, g5, hx5, hm6, hcons5, hgs5⟩ := mem_runSegs_cons hm5
  obtain ⟨x6, r6, c6, g6, hx6, hm7, hcons6, hgs6⟩ := mem_runSegs_cons hm6
  have hnil := mem_runSegs_nil hm7
  rw [Prod.mk.injEq, Prod.mk.injEq] at hnil
  obtain ⟨-, hglast, -⟩ := hnil
  refine ⟨x0, x4, ?_, mem_money2 hx4⟩
  rw [hgs0, hgs1, hgs2, hgs3, hgs4, hgs5, hgs6, hglast]
  simp
theorem itemPat4_money {line cons rest : Chars} {gs : List Chars}
    (h : matchSegs itemPat4 line = some (cons, gs, rest)) :
    ∃ g0 g1, gs = [g0, g1] ∧ Money2Shape g1 := by
  have hm0 := matchSegs_mem h
  simp only [itemPat4, ws0, ws1, curOpt, money2Cap, endSeg, nameCap] at hm0
  obtain ⟨x0, r0, c0, g0, hx0, hm1, hcons0, hgs0⟩ := mem_runSegs_cons hm0
  obtain ⟨x1, r1, c1, g1, hx1, hm2, hcons1, hgs1⟩ := mem_runSegs_cons hm1
  obtain ⟨x2, r2, c2, g2, hx2, hm3, hcons2, hgs2⟩ := mem_runSegs_cons hm2
  obtain ⟨x3, r3, c3, g3, hx3, hm4, hcons3, hgs3⟩ := mem_runSegs_cons hm3
  obtain ⟨x4, r4, c4, g4, hx4, hm5, hcons4, hgs4⟩ := mem_runSegs_cons hm4
  obtain ⟨x5, r5, c5, g5, hx5, hm6, hcons5, hgs5⟩ := mem_runSegs_cons hm5
  obtain ⟨x6, r6, c6, g6, hx6, hm7, hcons6, hgs6⟩ := mem_runSegs_cons hm6
  have hnil := mem_runSegs_nil hm7
  rw [Prod.mk.injEq, Prod.mk.injEq] at hnil
  obtain ⟨-, hglast, -⟩ := hnil
  refine ⟨x0, x4, ?_, mem_money2 hx4⟩
  rw [hgs0, hgs1, hgs2, hgs3, hgs4, hgs5, hgs6, hglast]
  simp
theorem processLine_shape {line : Chars} {it : RLineItem}
    (h : processLine line = some it) : 0 < it.total ∧ it.name.length ≤ 60 := by
  rw [processLine] at h
  split at h
  · cases h
  split at h
  · cases h
  split at h
  · rename_i cons gs rest g0 g1 g2 heq
    obtain ⟨g0', g1', g2', hgs, hm2⟩ := itemPat0_money heq
    obtain ⟨rfl, rfl, rfl⟩ := by simpa using hgs
    exact mkQtyTotalItem_shape hm2 h
  · cases h
  split at h
  · rename_i cons gs rest g0 g1 g2 heq
    obtain ⟨g0', g1', g2', hgs, hm2⟩ := itemPat1_money heq
    obtain ⟨rfl, rfl, rfl⟩ := by simpa using hgs
    exact mkQtyTotalItem_shape hm2 h
  · cases h
  split at h
  · rename_i cons gs rest g0 g1 g2 heq
    obtain ⟨g0', g1', g2', hgs, hm2⟩ := itemPat2_money heq
    obtain ⟨rfl, rfl, rfl⟩ := by simpa using hgs
    exact mkQtyUnitItem_shape h
  · cases h
  split at h
  · rename_i cons gs rest g0 g1 heq
    obtain ⟨g0', g1', hgs, hm2⟩ := itemPat3_money heq
    obtain ⟨rfl, rfl⟩ := by simpa using hgs
    exact mkUnitItem_shape hm2 h
  · cases h
  split at h
  · rename_i cons gs rest g0 g1 heq
    obtain ⟨g0', g1', hgs, hm2⟩ := itemPat4_money heq
    obtain ⟨rfl, rfl⟩ := by simpa using hgs
    exact mkUnitItem_shape hm2 h
  · cases h
  · cases h

theorem extract_line_items_shape {text : String} {it : RLineItem}
    (h : it ∈ extract_line_items text) : 0 < it.total ∧ it.name.length ≤ 60 := by
  rw [extract_line_items] at h
  obtain ⟨raw, -, hline⟩ := List.mem_filterMap.mp h
  exact processLine_shape hline

/-! ### `extract_text` lemmas -/

theorem foldl_ocrStep_skip (xs ys : List (Option OCRAttempt)) (init : String × ℚ) :
    (xs ++ none :: ys).foldl ocrStep init = (xs ++ ys).foldl ocrStep init := by
  rw [List.foldl_append, List.foldl_append, List.foldl_cons]
  rfl

theorem ocrBest1_skip (xs ys : List (Option OCRAttempt)) (engine : String)
    (fb : Option OCRAttempt) (h : xs ++ ys ≠ []) :
    ocrBest1 (xs ++ none :: ys) engine fb = ocrBest1 (xs ++ ys) engine fb := by
  have hb0 : ocrBest0 (xs ++ none :: ys) = ocrBest0 (xs ++ ys) := by
    rw [ocrBest0, ocrBest0, foldl_ocrStep_skip]
  rw [ocrBest1.eq_def, ocrBest1.eq_def, hb0]
  have hiff : ((ocrBest0 (xs ++ ys)).2 < 45/100 ∧ engine ≠ "easyocr" ∧
        (xs ++ none :: ys : List (Option OCRAttempt)) ≠ []) ↔
      ((ocrBest0 (xs ++ ys)).2 < 45/100 ∧ engine ≠ "easyocr" ∧
        (xs ++ ys : List (Option OCRAttempt)) ≠ []) := by
    constructor
    · intro hc; exact ⟨hc.1, hc.2.1, h⟩
    · intro hc; exact ⟨hc.1, hc.2.1, by simp⟩
  exact if_congr hiff rfl rfl

theorem extract_text_skip : ∀ (xs ys : List (Option OCRAttempt)) (engine : String)
    (fb : Option OCRAttempt), xs ++ ys ≠ [] →
    extract_text (xs ++ none :: ys) engine fb = extract_text (xs ++ ys) engine fb := by
  intro xs ys engine fb h
  unfold extract_text
  rw [ocrBest1_skip xs ys engine fb h]

theorem extract_text_all_fail : ∀ (attempts : List (Option OCRAttempt)) (engine : String),
    (∀ o ∈ attempts, o = none) →
    extract_text attempts engine none = ⟨"", "", -1, engine, 0⟩ := by
  intro attempts engine h
  have hfold : ocrBest0 attempts = ("", -1) := by
    rw [ocrBest0]
    induction attempts with
    | nil => rfl
    | cons o rest ih =>
      rw [List.foldl_cons, h o (by simp)]
      exact ih (fun o ho => h o (by simp [ho]))
  have hb1 : ocrBest1 attempts engine none = ("", -1, engine) := by
    rw [ocrBest1.eq_def, hfold]
    split <;> rfl
  unfold extract_text
  rw [hb1]
  have hmin : min (-1 : ℚ) 1 = -1 := min_eq_left (by norm_num)
  show (⟨String.mk (clean_text ("" : String).data), "", min (-1 : ℚ) 1, engine,
      (wordsOf (clean_text ("" : String).data)).length⟩ : OCRResult) = _
  rw [hmin]
  rfl

theorem foldl_ocrStep_best : ∀ (as : List OCRAttempt) (t0 : String) (c0 : ℚ),
    ((∀ a ∈ as, ocrScore a ≤ c0) ∧ (as.map some).foldl ocrStep (t0, c0) = (t0, c0)) ∨
    (∃ pre b post, as = pre ++ b :: post ∧ c0 < ocrScore b ∧
      (∀ x ∈ pre, ocrScore x < ocrScore b) ∧ (∀ x ∈ post, ocrScore x ≤ ocrScore b) ∧
      (as.map some).foldl ocrStep (t0, c0) = (b.text, ocrScore b)) := by
  intro as
  induction as with
  | nil => intro t0 c0; left; exact ⟨by simp, rfl⟩
  | cons a rest ih =>
    intro t0 c0
    rw [List.map_cons, List.foldl_cons]
    by_cases ha : c0 < ocrScore a
    · have hstep : ocrStep (t0, c0) (some a) = (a.text, ocrScore a) := by
        rw [ocrStep]
        simp only [ha, if_true]
      rw [hstep]
      rcases ih a.text (ocrScore a) with ⟨hall, heq⟩ | ⟨pre, b, post, hsplit, hlt, hpre, hpost, heq⟩
      · right
        exact ⟨[], a, rest, by simp, ha, by simp,
          fun x hx => hall x hx, heq⟩
      · right
        refine ⟨a :: pre, b, post, by simp [hsplit], lt_trans ha hlt, ?_, hpost, heq⟩
        intro x hx
        rcases List.mem_cons.mp hx with rfl | hx
        · exact hlt
        · exact hpre x hx
    · have hstep : ocrStep (t0, c0) (some a) = (t0, c0) := by
        rw [ocrStep]
        simp only [ha, if_false]
      rw [hstep]
      rcases ih t0 c0 with ⟨hall, heq⟩ | ⟨pre, b, post, hsplit, hlt, hpre, hpost, heq⟩
      · left
        refine ⟨?_, heq⟩
        intro x hx
        rcases List.mem_cons.mp hx with rfl | hx
        · exact le_of_not_lt ha
        · exact hall x hx
      · right
        refine ⟨a :: pre, b, post, by simp [hsplit], hlt, ?_, hpost, heq⟩
        intro x hx
        rcases List.mem_cons.mp hx with rfl | hx
        · exact lt_of_le_of_lt (le_of_not_lt ha) hlt
        · exact hpre x hx

theorem ocrScore_nonneg {a : OCRAttempt} (h : 0 ≤ a.conf) : 0 ≤ ocrScore a := by
  rw [ocrScore]
  apply mul_nonneg h
  have h1 : (0 : ℚ) ≤ min (((wordsOf a.text.data).length : ℚ) / 100) 1 :=
    le_min (by positivity) (by norm_num)
  linarith

theorem extract_text_first_max : ∀ (as : List OCRAttempt) (fb : Option OCRAttempt),
    as ≠ [] → (∀ a ∈ as, 0 ≤ a.conf) →
    ∃ b, IsFirstStrictMax as b ∧
      extract_text (as.map some) "easyocr" fb =
        ⟨String.mk (clean_text b.text.data), b.text, min (ocrScore b) 1, "easyocr",
         (wordsOf (clean_text b.text.data)).length⟩ := by
  intro as fb hne hconf
  rcases foldl_ocrStep_best as "" (-1) with ⟨hall, -⟩ | ⟨pre, b, post, hsplit, -, hpre, hpost, heq⟩
  · exfalso
    match as, hne with
    | a :: rest, _ =>
      have h1 := hall a (by simp)
      have h2 := ocrScore_nonneg (hconf a (by simp))
      linarith
  · refine ⟨b, ⟨pre, post, hsplit, hpre, ?_⟩, ?_⟩
    · intro x hx
      rw [hsplit] at hx
      rcases List.mem_append.mp hx with hx | hx
      · exact le_of_lt (hpre x hx)
      · rcases List.mem_cons.mp hx with rfl | hx
        · exact le_rfl
        · exact hpost x hx
    · have hb0 : ocrBest0 (as.map some) = (b.text, ocrScore b) := by rw [ocrBest0, heq]
      have hcond : ¬ ((ocrBest0 (as.map some)).2 < 45/100 ∧
          ("easyocr" : String) ≠ "easyocr" ∧ (as.map some : List (Option OCRAttempt)) ≠ []) := by
        intro hc
        exact hc.2.1 rfl
      have hb1 : ocrBest1 (as.map some) "easyocr" fb = (b.text, ocrScore b, "easyocr") := by
        rw [ocrBest1.eq_def, if_neg hcond, hb0]
      unfold extract_text
      rw [hb1]

/-! ### `extract_date` year guard -/

theorem extract_date_year_bound : ∀ (parse : String → Option SimpleDate) (now : Nat)
    (text s : String), extract_date parse now text = some s →
    ∃ d : SimpleDate, d.year ≤ now + 1 ∧ s = formatYMD d := by
  intro parse now text s h
  rw [extract_date] at h
  obtain ⟨pat, -, h2⟩ := List.exists_of_findSome?_eq_some h
  obtain ⟨mt, -, h3⟩ := List.exists_of_findSome?_eq_some h2
  match hp : parse (String.mk mt.1) with
  | some d =>
    rw [hp] at h3
    have h4 : (if now + 1 < d.year then none else some (formatYMD d)) = some s := h3
    by_cases hy : now + 1 < d.year
    · rw [if_pos hy] at h4; cases h4
    · rw [if_neg hy] at h4
      have hs : formatYMD d = s := Option.some.injEq .. ▸ h4
      exact ⟨d, by omega, hs.symm⟩
  | none => rw [hp] at h3; cases h3

/-! ## Claim theorems -/

/-- C1 (counterexample): on the spec's Walmart transcript the extractor
returns only the "Bread Wheat" line item; the claimed two-item list
(including "Milk 2%") is not produced, because `%` is outside the
item-name character class of every line-item pattern. -/
theorem C1_counterexample :
    (extract dateutilSlash 2026 none walmartTranscript (1/2)).line_items =
      [⟨"Bread Wheat", 1, 299/100, 299/100⟩] ∧
    (extract dateutilSlash 2026 none walmartTranscript (1/2)).line_items ≠
      [⟨"Milk 2%", 1, 349/100, 349/100⟩, ⟨"Bread Wheat", 1, 299/100, 299/100⟩] := by
  have h1 : (extract dateutilSlash 2026 none walmartTranscript (1/2)).line_items =
      [⟨"Bread Wheat", 1, 299/100, 299/100⟩] := by with_unfolding_all rfl
  refine ⟨h1, ?_⟩
  rw [h1]
  simp

/-- C1 (amended): for every OCR confidence, on the Walmart transcript the
extractor returns merchant "WALMART SUPERCENTER", date "2025-01-15",
total 7.00 and tax 0.52 as the claim states, but exactly one line item —
{Bread Wheat, qty 1, unit 2.99, total 2.99}; the "Milk 2%" line yields no
item.  The SUBTOTAL/TAX/TOTAL lines are excluded. -/
theorem C1_amended : ∀ ocr : ℚ,
    (extract dateutilSlash 2026 none walmartTranscript ocr).merchant_name =
        some "WALMART SUPERCENTER" ∧
    (extract dateutilSlash 2026 none walmartTranscript ocr).receipt_date =
        some "2025-01-15" ∧
    (extract dateutilSlash 2026 none walmartTranscript ocr).total_amount = some 7 ∧
    (extract dateutilSlash 2026 none walmartTranscript ocr).tax_amount = some (52/100) ∧
    (extract dateutilSlash 2026 none walmartTranscript ocr).line_items =
        [⟨"Bread Wheat", 1, 299/100, 299/100⟩] := by
  intro ocr
  refine ⟨?_, ?_, ?_, ?_, ?_⟩ <;> with_unfolding_all rfl

/-- C2 (counterexample): "1,234.567,89" contains the money shape
(integer part with grouping, then a comma-decimal tail) yet
`_parse_amount` yields no value: the dot-grouped rewrite leaves two
decimal separators and `float()` fails. -/
theorem C2_counterexample :
    parse_amount "1,234.567,89" = none ∧
    (∃ m, IsSub m ("1,234.567,89" : String).data ∧ SpecMoneyShape m) := by
  refine ⟨by with_unfolding_all rfl, ⟨("1,234.567,89" : String).data, IsSub.refl _, ?_⟩⟩
  refine ⟨['1'], [',', '2', '3', '4'] ++ [['.', '5', '6', '7']].flatten ++ [',', '8', '9'],
    by decide, by decide, by decide, by decide,
    [[',', '2', '3', '4'], ['.', '5', '6', '7']], [',', '8', '9'], by decide, ?_, ?_⟩
  · intro b hb
    rcases (by simpa using hb : b = [',', '2', '3', '4'] ∨ b = ['.', '5', '6', '7']) with rfl | rfl
    · exact ⟨',', '2', '3', '4', rfl, by decide, by decide, by decide, by decide⟩
    · exact ⟨'.', '5', '6', '7', rfl, by decide, by decide, by decide, by decide⟩
  · exact ⟨',', ['8', '9'], rfl, by decide, by decide, by decide, by decide⟩

/-- C2 (amended): the match stage of `_parse_amount` accepts exactly the
strings containing the spec's money shape, with "1,234.56" ↦ 1234.56,
"1.234,56" ↦ 1234.56 and "1234" unmatched; the full parser additionally
returns no value when the dot-grouped rewrite of the match is malformed
(see the counterexample). -/
theorem C2_amended :
    (∀ s : String, (moneySearchL s.data).isSome ↔
      ∃ m, IsSub m s.data ∧ SpecMoneyShape m) ∧
    parse_amount "1,234.56" = some (123456/100) ∧
    parse_amount "1.234,56" = some (123456/100) ∧
    parse_amount "1234" = none :=
  ⟨fun s => moneySearch_iff s.data, by with_unfolding_all rfl,
   by with_unfolding_all rfl, by with_unfolding_all rfl⟩

/-- C3 (counterexample): when the only variant's recognition attempt
fails and no fallback is available, `extract_text` does not raise a
backend-unavailable error — it returns an ordinary result with an empty
transcript and confidence -1.0. -/
theorem C3_counterexample :
    extract_text [none] "tesseract" none = ⟨"", "", -1, "tesseract", 0⟩ := by
  with_unfolding_all rfl

/-- C3 (amended): a backend invocation failing on a single variant is
skipped and not fatal (removing it leaves the result unchanged while
other attempts remain, the fallback outcome being fixed); but
`extract_text` never raises: when every attempt and the fallback fail it
returns an empty transcript with confidence -1.0 instead of an error. -/
theorem C3_amended :
    (∀ (xs ys : List (Option OCRAttempt)) (engine : String) (fb : Option OCRAttempt),
      xs ++ ys ≠ [] →
      extract_text (xs ++ none :: ys) engine fb = extract_text (xs ++ ys) engine fb) ∧
    (∀ (attempts : List (Option OCRAttempt)) (engine : String),
      (∀ o ∈ attempts, o = none) →
      extract_text attempts engine none = ⟨"", "", -1, engine, 0⟩) :=
  ⟨extract_text_skip, extract_text_all_fail⟩

theorem C3_amended_witness :
    extract_text [some ⟨"hi", 1/2⟩, none] "tesseract" none =
      extract_text [some ⟨"hi", 1/2⟩] "tesseract" none ∧
    extract_text [none, none] "easyocr" none = ⟨"", "", -1, "easyocr", 0⟩ :=
  ⟨C3_amended.1 [some ⟨"hi", 1/2⟩] [] "tesseract" none (by simp),
   C3_amended.2 [none, none] "easyocr" (by simp)⟩

/-- C4 (code bug): the confidence is meant to lie in [0, 1] — the
response schema declares `ge=0.0, le=1.0` — but on an input where every
recognition attempt fails `extract_text` reports -1.0 (only an upper
`min` is applied, no lower clamp), and feeding that into the fusion with
no extracted fields yields -0.5. -/
theorem C4_failing_eval :
    (extract_text [none] "tesseract" none).confidence = -1 ∧
    _calculate_confidence none none none none [] (-1) = -(1/2) := by
  constructor <;> with_unfolding_all rfl

/-- C5 (counterexample): the first attempt meets the claimed early-exit
bar (confidence 0.80 ≥ 0.80, 20 words ≥ 20), yet removing the later
variant changes the returned transcript and confidence — the loop has no
early exit and a later, higher-scoring variant wins. -/
theorem C5_counterexample :
    (80/100 : ℚ) ≤ qualifyingAttempt.conf ∧
    20 ≤ (wordsOf qualifyingAttempt.text.data).length ∧
    extract_text [some qualifyingAttempt, some laterAttempt] "easyocr" none ≠
      extract_text [some qualifyingAttempt] "easyocr" none := by
  refine ⟨by norm_num [qualifyingAttempt], by with_unfolding_all rfl, ?_⟩
  intro h
  have hc := congrArg OCRResult.confidence h
  have h1 : (extract_text [some qualifyingAttempt, some laterAttempt] "easyocr"
      none).confidence = 969/1000 := by with_unfolding_all rfl
  have h2 : (extract_text [some qualifyingAttempt] "easyocr" none).confidence = 24/25 := by
    with_unfolding_all rfl
  rw [h1, h2] at hc
  norm_num at hc

/-- C5 (amended): the loop evaluates every variant with no early exit:
with the primary engine set to easyocr (so no fallback applies), the
result is that of the first attempt attaining the maximal score —
regardless of whether an earlier attempt met the 0.80-confidence /
20-word bar. -/
theorem C5_amended : ∀ (as : List OCRAttempt) (fb : Option OCRAttempt),
    as ≠ [] → (∀ a ∈ as, 0 ≤ a.conf) →
    ∃ b, IsFirstStrictMax as b ∧
      extract_text (as.map some) "easyocr" fb =
        ⟨String.mk (clean_text b.text.data), b.text, min (ocrScore b) 1, "easyocr",
         (wordsOf (clean_text b.text.data)).length⟩ :=
  extract_text_first_max

theorem C5_amended_witness :
    ∃ b, IsFirstStrictMax [qualifyingAttempt, laterAttempt] b ∧
      extract_text ([qualifyingAttempt, laterAttempt].map some) "easyocr" none =
        ⟨String.mk (clean_text b.text.data), b.text, min (ocrScore b) 1, "easyocr",
         (wordsOf (clean_text b.text.data)).length⟩ :=
  C5_amended [qualifyingAttempt, laterAttempt] none (by simp)
    (by
      intro a ha
      rcases (by simpa using ha : a = qualifyingAttempt ∨ a = laterAttempt) with rfl | rfl
      · rw [qualifyingAttempt]; norm_num
      · rw [laterAttempt]; norm_num)

/-- C6 (counterexample): the line "0 x Foo 4.98" produces a line item
with quantity 0 — not a positive integer — via the `qty x name price`
pattern (`\d+` admits "0" and the back-computation guards only division). -/
theorem C6_counterexample :
    extract_line_items "0 x Foo 4.98" = [⟨"Foo", 0, 498/100, 498/100⟩] ∧
    ¬ 0 < (⟨"Foo", 0, 498/100, 498/100⟩ : RLineItem).quantity :=
  ⟨by with_unfolding_all rfl, by simp⟩

/-- C6 (amended): every emitted line item has a strictly positive line
total and a name of at most 60 characters; the quantity is a nonnegative
integer but may be zero (see the counterexample). -/
theorem C6_amended : ∀ (text : String), ∀ it ∈ extract_line_items text,
    0 < it.total ∧ it.name.length ≤ 60 :=
  fun _ _ h => extract_line_items_shape h

theorem C6_amended_witness :
    0 < (⟨"Bread Wheat", 1, 299/100, 299/100⟩ : RLineItem).total ∧
    (⟨"Bread Wheat", 1, 299/100, 299/100⟩ : RLineItem).name.length ≤ 60 :=
  C6_amended walmartTranscript ⟨"Bread Wheat", 1, 299/100, 299/100⟩ (by
    have h : extract_line_items walmartTranscript =
        [⟨"Bread Wheat", 1, 299/100, 299/100⟩] := by with_unfolding_all rfl
    rw [h]
    simp)

/-- C7 (counterexample): with the entity-recognition backend enabled and
returning "ACME Corp", a text whose first 6 lines defeat the keyword and
alphabetic strategies still resolves through the first-line fallback —
the backend is never consulted before it. -/
theorem C7_counterexample :
    extract_merchant (some fun _ => some "ACME Corp") "12345 67.89" =
      some "12345 67.89" ∧
    extract_merchant (some fun _ => some "ACME Corp") "12345 67.89" ≠
      some "ACME Corp" := by
  have h : extract_merchant (some fun _ => some "ACME Corp") "12345 67.89" =
      some "12345 67.89" := by with_unfolding_all rfl
  refine ⟨h, ?_⟩
  rw [h]
  simp

/-- C7 (amended): the strategies apply in the order keyword match, then
mostly-alphabetic line, then FIRST-LINE FALLBACK, and the
entity-recognition backend is consulted LAST, only when all three
line-based strategies fail. -/
theorem C7_amended : ∀ (bert : Option (String → Option String)) (text : String),
    extract_merchant bert text =
      (((((stratKeyword (nonEmptyLines text.data)).orElse
          (fun _ => stratAlpha (nonEmptyLines text.data))).orElse
          (fun _ => stratFirstLine (nonEmptyLines text.data))).map String.mk).orElse
        (fun _ => bertFallback bert text)) := by
  intro bert text
  unfold extract_merchant merchantFromLines
  cases stratKeyword (nonEmptyLines text.data) <;>
    cases stratAlpha (nonEmptyLines text.data) <;>
      cases stratFirstLine (nonEmptyLines text.data) <;>
        simp [Option.orElse]

/-- C8: field extraction is total — each field is an optional value
(`none` or an empty item list when parsing fails) and enters the result
only through the confidence fusion; no exception path exists (every
fallible sub-step of the source catches internally).  On an empty
transcript every field is absent and the score is still computed. -/
theorem C8_theorem :
    (∀ (parse : String → Option SimpleDate) (now : Nat)
       (bert : Option (String → Option String)) (text : String) (ocr : ℚ),
      extract parse now bert text ocr =
        ⟨extract_merchant bert text, extract_date parse now text, extract_total text,
         extract_tax text, extract_line_items text,
         round2 (min
           (if !(extract_line_items text).isEmpty then
              min 1 (ocr * (1/2)
                + (if (extract_merchant bert text).isSome then 1/10 else 0)
                + (if (extract_date parse now text).isSome then 15/100 else 0)
                + (if (extract_total text).isSome then 2/10 else 0)
                + (if (extract_tax text).isSome then 5/100 else 0) + 1/10)
            else ocr * (1/2)
                + (if (extract_merchant bert text).isSome then 1/10 else 0)
                + (if (extract_date parse now text).isSome then 15/100 else 0)
                + (if (extract_total text).isSome then 2/10 else 0)
                + (if (extract_tax text).isSome then 5/100 else 0)) 1)⟩) ∧
    (∀ ocr : ℚ, extract dateutilSlash 2026 none "" ocr =
      ⟨none, none, none, none, [], round2 (min (ocr * (1/2)) 1)⟩) := by
  constructor
  · intro parse now bert text ocr
    rw [extract]
    have hconf : ∀ (m d : Option String) (t x : Option ℚ) (items : List RLineItem),
        _calculate_confidence m d t x items ocr =
          round2 (min
            (if !items.isEmpty then
               min 1 (ocr * (1/2) + (if m.isSome then 1/10 else 0)
                 + (if d.isSome then 15/100 else 0) + (if t.isSome then 2/10 else 0)
                 + (if x.isSome then 5/100 else 0) + 1/10)
             else ocr * (1/2) + (if m.isSome then 1/10 else 0)
                 + (if d.isSome then 15/100 else 0) + (if t.isSome then 2/10 else 0)
                 + (if x.isSome then 5/100 else 0)) 1) := by
      intro m d t x items
      rw [_calculate_confidence]
      split_ifs <;> (congr 2 <;> ring_nf)
    rw [hconf]
  · intro ocr
    rw [extract]
    have h1 : extract_merchant none "" = none := rfl
    have h2 : extract_date dateutilSlash 2026 "" = none := rfl
    have h3 : extract_total "" = none := rfl
    have h4 : extract_tax "" = none := rfl
    have h5 : extract_line_items "" = [] := rfl
    rw [h1, h2, h3, h4, h5, _calculate_confidence]
    simp

/-- C9: `extract_date` never returns a date whose year exceeds the
current year + 1 (every accepted match is formatted `YYYY-MM-DD` from a
parsed date within the bound); and a candidate parsing to current year
+ 5 (2031 with now = 2026) is skipped while later candidates are still
tried, here yielding 2025-01-15. -/
theorem C9_theorem :
    (∀ (parse : String → Option SimpleDate) (now : Nat) (text s : String),
      extract_date parse now text = some s →
      ∃ d : SimpleDate, d.year ≤ now + 1 ∧ s = formatYMD d) ∧
    extract_date farFutureOracle 2026 "2031-01-02 01/15/2025" = some "2025-01-15" :=
  ⟨extract_date_year_bound, by with_unfolding_all rfl⟩

theorem C9_theorem_witness :
    ∃ d : SimpleDate, d.year ≤ 2026 + 1 ∧ "2025-01-15" = formatYMD d :=
  C9_theorem.1 farFutureOracle 2026 "2031-01-02 01/15/2025" "2025-01-15" C9_theorem.2

/-- C10: the bare "total" label is not anchored at a word boundary, so it
matches inside "SUBTOTAL": on a text whose only money-bearing line is
"SUBTOTAL 20.35", `extract_total` returns 20.35 rather than no value. -/
theorem C10_theorem :
    extract_total "SUBTOTAL 20.35" = some (2035/100) ∧
    extract_total "SUBTOTAL 20.35" ≠ none := by
  have h : extract_total "SUBTOTAL 20.35" = some (2035/100) := by with_unfolding_all rfl
  exact ⟨h, by rw [h]; simp⟩

end Bizwise
